import Mathlib

/-!
# Verification of the Trustroots nostr-email-notification-daemon

A shallow embedding, in Lean 4, of the relay event ingestion and
notification pipeline of the Trustroots `nostr-email-notification-daemon`
repository (Go).  Pure functions of the Go source are translated into Lean
functions; the SQLite deduplication table and the dispatched-email side
effects are modelled by explicit state passing; Go strings are modelled as
`List Char` and Go byte slices as `List Nat` with values below 256.

The development covers:
* the bech32 identity codec used by `npubToHex` / `hexToNpub`
  (the `github.com/btcsuite/btcd/btcutil/bech32` library functions that
  those two repository functions call);
* the event classification and notification dispatch logic of `main.go`
  (`mentionsNpub`, `mentionsUser`, `isDirectMessageForUser`,
  `processMention`, `processDirectMessage`, `validateNIP4Message`,
  `isNoteProcessed`, `markNoteProcessed`) together with the read loop of
  `connectToRelay`;
* the read-loop error handling of the sibling variant of `connectToRelay`.
-/

/-- Go strings are byte strings; every string handled by this program is
ASCII, so we model a Go string as a list of characters. -/
abbrev GoStr := List Char

/-- Models Go `strings.ToLower` on a single ASCII character. -/
def asciiToLower (c : Char) : Char :=
  if 65 ≤ c.toNat && c.toNat ≤ 90 then Char.ofNat (c.toNat + 32) else c

/-- An ASCII lowercase letter (byte in 97..122), as tested by
`bech32.decodeNoLimit` when checking for mixed case. -/
def isAsciiLower (c : Char) : Bool := 97 ≤ c.toNat && c.toNat ≤ 122

/-- An ASCII uppercase letter (byte in 65..90), as tested by
`bech32.decodeNoLimit` when checking for mixed case. -/
def isAsciiUpper (c : Char) : Bool := 65 ≤ c.toNat && c.toNat ≤ 90

/-! ## Bit-level utilities

`bech32.ConvertBits` regroups a stream of `fromBits`-bit big-endian groups
into `toBits`-bit big-endian groups.  We model the bit stream explicitly:
`bitsBE w v` is the low `w` bits of `v`, most significant first (the Go
loop discards the bits of an input byte above `fromBits` by shifting, which
is exactly the restriction to the low `fromBits` bits), and `valBE`
reassembles a big-endian bit list into a number (the Go loop emits each
output group as soon as `toBits` bits have accumulated). -/

/-- The low `w` bits of `v`, most significant bit first. -/
def bitsBE : Nat → Nat → List Bool
  | 0, _ => []
  | w + 1, v => v.testBit w :: bitsBE w v

/-- The value of a big-endian bit list. -/
def valBE : List Bool → Nat
  | [] => 0
  | b :: bs => (cond b 1 0) * 2 ^ bs.length + valBE bs

/-- Fuel-driven worker for `groupsOf`; the fuel dominates the list length
so the recursion is structural and computes by reduction. -/
def groupsOfFuel (k : Nat) : Nat → List Bool → List Nat
  | 0, _ => []
  | _ + 1, [] => []
  | fuel + 1, b :: bs =>
    if k = 0 then []
    else valBE ((b :: bs).take k) :: groupsOfFuel k fuel ((b :: bs).drop k)

/-- Splits a bit list into consecutive groups of `k` bits and returns the
value of each group; a trailing group shorter than `k` is also emitted
(callers arrange for `k` to divide the length). -/
def groupsOf (k : Nat) (bs : List Bool) : List Nat :=
  groupsOfFuel k bs.length bs

theorem groupsOfFuel_congr (k : Nat) :
    ∀ f1 f2 bs, bs.length ≤ f1 → bs.length ≤ f2 →
      groupsOfFuel k f1 bs = groupsOfFuel k f2 bs := by
  intro f1
  induction f1 with
  | zero =>
    intro f2 bs h1 h2
    have hnil : bs = [] := List.eq_nil_of_length_eq_zero (by omega)
    subst hnil
    cases f2 <;> rfl
  | succ f1 ih =>
    intro f2 bs h1 h2
    rcases bs with _ | ⟨b, bs⟩
    · cases f2 <;> rfl
    · rcases f2 with _ | f2
      · simp at h2
      · simp only [groupsOfFuel]
        by_cases hk : k = 0
        · simp [hk]
        · rw [if_neg hk, if_neg hk]
          congr 1
          apply ih
          · simp only [List.length_drop, List.length_cons] at h1 ⊢
            omega
          · simp only [List.length_drop, List.length_cons] at h2 ⊢
            omega

theorem length_bitsBE (w v : Nat) : (bitsBE w v).length = w := by
  induction w generalizing v with
  | zero => rfl
  | succ w ih => simp [bitsBE, ih]

theorem valBE_lt (bs : List Bool) : valBE bs < 2 ^ bs.length := by
  induction bs with
  | nil => simp [valBE]
  | cons b bs ih =>
    simp only [valBE, List.length_cons, pow_succ]
    rcases b with _ | _ <;> simp <;> omega

theorem mod_two_pow_succ (v w : Nat) :
    v % 2 ^ (w + 1) = 2 ^ w * (v / 2 ^ w % 2) + v % 2 ^ w := by
  have hp : 0 < 2 ^ w := Nat.two_pow_pos w
  have hr : v % 2 ^ w < 2 ^ w := Nat.mod_lt _ hp
  have h2 : v / 2 ^ w % 2 ≤ 1 := by omega
  have h3 : 2 ^ w * (v / 2 ^ w % 2) ≤ 2 ^ w * 1 := Nat.mul_le_mul le_rfl h2
  conv_lhs => rw [← Nat.div_add_mod v (2 ^ w)]
  rw [pow_succ, Nat.add_mod, Nat.mul_mod_mul_left,
    Nat.mod_eq_of_lt (show v % 2 ^ w < 2 ^ w * 2 by omega),
    Nat.mod_eq_of_lt (show 2 ^ w * (v / 2 ^ w % 2) + v % 2 ^ w < 2 ^ w * 2 by
      omega)]

theorem valBE_bitsBE (w v : Nat) : valBE (bitsBE w v) = v % 2 ^ w := by
  induction w generalizing v with
  | zero => simp [bitsBE, valBE, Nat.mod_one]
  | succ w ih =>
    simp only [bitsBE, valBE, length_bitsBE, ih]
    rw [Nat.testBit_to_div_mod, mod_two_pow_succ]
    rcases Nat.mod_two_eq_zero_or_one (v / 2 ^ w) with h | h <;>
      simp [h, Nat.mul_comm]

theorem bitsBE_mod (w v : Nat) : bitsBE w (v % 2 ^ w) = bitsBE w v := by
  induction w generalizing v with
  | zero => rfl
  | succ w ih =>
    simp only [bitsBE]
    congr 1
    · simp [Nat.testBit_mod_two_pow]
    · have h1 : v % 2 ^ (w + 1) % 2 ^ w = v % 2 ^ w :=
        Nat.mod_mod_of_dvd v (pow_dvd_pow 2 (Nat.le_succ w))
      calc bitsBE w (v % 2 ^ (w + 1))
          = bitsBE w (v % 2 ^ (w + 1) % 2 ^ w) := (ih _).symm
        _ = bitsBE w (v % 2 ^ w) := by rw [h1]
        _ = bitsBE w v := ih v

theorem bitsBE_valBE {bs : List Bool} {w : Nat} (h : bs.length = w) :
    bitsBE w (valBE bs) = bs := by
  induction bs generalizing w with
  | nil => subst h; rfl
  | cons b bs ih =>
    subst h
    simp only [List.length_cons, bitsBE, valBE]
    have hlt : valBE bs < 2 ^ bs.length := valBE_lt bs
    congr 1
    · rw [Nat.testBit_to_div_mod]
      rw [Nat.mul_comm, Nat.mul_add_div (Nat.two_pow_pos bs.length),
        Nat.div_eq_of_lt hlt]
      rcases b with _ | _ <;> simp
    · have hmod : ((cond b 1 0) * 2 ^ bs.length + valBE bs) % 2 ^ bs.length
          = valBE bs := by
        rw [Nat.mul_comm, Nat.mul_add_mod, Nat.mod_eq_of_lt hlt]
      calc bitsBE bs.length ((cond b 1 0) * 2 ^ bs.length + valBE bs)
          = bitsBE bs.length (((cond b 1 0) * 2 ^ bs.length + valBE bs)
              % 2 ^ bs.length) := (bitsBE_mod _ _).symm
        _ = bitsBE bs.length (valBE bs) := by rw [hmod]
        _ = bs := ih rfl

theorem groupsOf_nil (k : Nat) : groupsOf k [] = [] := rfl

theorem groupsOf_zero (bs : List Bool) : groupsOf 0 bs = [] := by
  rcases bs with _ | ⟨b, bs⟩ <;> simp [groupsOf, groupsOfFuel]

theorem groupsOf_cons {k : Nat} {bs : List Bool} (hk : k ≠ 0) (hbs : bs ≠ []) :
    groupsOf k bs = valBE (bs.take k) :: groupsOf k (bs.drop k) := by
  rcases bs with _ | ⟨b, bs⟩
  · exact absurd rfl hbs
  · show groupsOfFuel k (b :: bs).length (b :: bs) = _
    simp only [List.length_cons, groupsOfFuel, if_neg hk]
    congr 1
    apply groupsOfFuel_congr
    · simp only [List.length_drop, List.length_cons]
      omega
    · simp

theorem groupsOf_append {k : Nat} {bs : List Bool} (hk : k ≠ 0)
    (h : bs.length = k) (rest : List Bool) :
    groupsOf k (bs ++ rest) = valBE bs :: groupsOf k rest := by
  have hbs : bs ≠ [] := by
    intro hc; subst hc; simp at h; omega
  have hne : bs ++ rest ≠ [] := by
    simp [hbs]
  rw [groupsOf_cons hk hne]
  congr 1
  · rw [← h, List.take_left]
  · rw [← h, List.drop_left]

theorem groupsOf_all_lt (k : Nat) :
    ∀ (n : Nat) (bs : List Bool), bs.length ≤ n →
      ∀ v ∈ groupsOf k bs, v < 2 ^ k := by
  intro n
  induction n with
  | zero =>
    intro bs h v hv
    have hnil : bs = [] := List.eq_nil_of_length_eq_zero (by omega)
    subst hnil
    rw [groupsOf_nil] at hv
    simp at hv
  | succ n ih =>
    intro bs h v hv
    by_cases hc : k = 0 ∨ bs = []
    · rcases hc with hc | hc
      · subst hc; rw [groupsOf_zero] at hv; simp at hv
      · subst hc; rw [groupsOf_nil] at hv; simp at hv
    · push_neg at hc
      rw [groupsOf_cons hc.1 hc.2] at hv
      rcases List.mem_cons.mp hv with hv | hv
      · subst hv
        calc valBE (bs.take k) < 2 ^ (bs.take k).length := valBE_lt _
          _ ≤ 2 ^ k := Nat.pow_le_pow_right (by omega)
                (by simp [List.length_take])
      · have hlen : (bs.drop k).length ≤ n := by
          have hb : bs.length ≠ 0 := by
            intro hz; exact hc.2 (List.eq_nil_of_length_eq_zero hz)
          simp only [List.length_drop]
          omega
        exact ih (bs.drop k) hlen v hv

theorem flatMap_bitsBE_groupsOf {k : Nat} (hk : k ≠ 0) :
    ∀ (n : Nat) (bs : List Bool), bs.length ≤ n → k ∣ bs.length →
      (groupsOf k bs).flatMap (bitsBE k) = bs := by
  intro n
  induction n with
  | zero =>
    intro bs h _
    have hnil : bs = [] := List.eq_nil_of_length_eq_zero (by omega)
    subst hnil
    simp [groupsOf_nil]
  | succ n ih =>
    intro bs h hdvd
    by_cases hbs : bs = []
    · subst hbs; simp [groupsOf_nil]
    · have hlen : k ≤ bs.length := by
        have hpos : 0 < bs.length := List.length_pos.mpr hbs
        exact Nat.le_of_dvd hpos hdvd
      rw [groupsOf_cons hk hbs]
      rw [List.flatMap_cons]
      have htk : (bs.take k).length = k := by
        simp [List.length_take]; omega
      rw [bitsBE_valBE htk]
      have hdl : (bs.drop k).length ≤ n := by
        simp only [List.length_drop]; omega
      have hdd : k ∣ (bs.drop k).length := by
        simp only [List.length_drop]
        exact (Nat.dvd_sub' hdvd dvd_rfl)
      rw [ih (bs.drop k) hdl hdd, List.take_append_drop]

theorem length_flatMap_bitsBE (w : Nat) (x : List Nat) :
    (x.flatMap (bitsBE w)).length = w * x.length := by
  induction x with
  | nil => simp
  | cons a x ih =>
    simp [List.flatMap_cons, length_bitsBE, ih, Nat.mul_succ, Nat.mul_add]
    omega

theorem groupsOf_flatMap_bitsBE {k : Nat} (hk : k ≠ 0) (x : List Nat)
    (hx : ∀ b ∈ x, b < 2 ^ k) : groupsOf k (x.flatMap (bitsBE k)) = x := by
  induction x with
  | nil => simp [groupsOf_nil]
  | cons a x ih =>
    rw [List.flatMap_cons]
    rw [groupsOf_append hk (length_bitsBE k a)]
    rw [valBE_bitsBE]
    rw [Nat.mod_eq_of_lt (hx a (List.mem_cons_self a x))]
    rw [ih (fun b hb => hx b (List.mem_cons_of_mem a hb))]

theorem any_replicate_false (m : Nat) :
    (List.replicate m false).any (fun b => b) = false := by
  induction m with
  | zero => rfl
  | succ m ih => simp [List.replicate_succ, ih]

/-- Models `bech32.ConvertBits` from `github.com/btcsuite/btcd/btcutil/bech32`
(`conversion.go`).  The Go loop shifts each input byte left by
`8 - fromBits` (discarding the bits above `fromBits`), accumulates the bit
stream and emits a `toBits`-bit group as soon as it is full; with `pad` the
final partial group is zero-padded on the right and emitted, without `pad`
the conversion fails when more than 4 bits remain or when any remaining bit
is set.  Here the bit stream is the explicit list
`data.flatMap (bitsBE fromBits)` and the groups are `groupsOf toBits`. -/
def convertBits (data : List Nat) (fromBits toBits : Nat) (pad : Bool) :
    Except String (List Nat) :=
  if fromBits < 1 || fromBits > 8 || toBits < 1 || toBits > 8 then
    Except.error "only bit groups between 1 and 8 allowed"
  else
    let bits := data.flatMap (bitsBE fromBits)
    let r := bits.length % toBits
    if pad then
      Except.ok (groupsOf toBits (bits ++ List.replicate ((toBits - r) % toBits) false))
    else if r > 4 || (bits.drop (bits.length - r)).any (fun b => b) then
      Except.error "invalid incomplete group"
    else
      Except.ok (groupsOf toBits (bits.take (bits.length - r)))

theorem convertBits_8_5_pad (x : List Nat) :
    convertBits x 8 5 true = Except.ok (groupsOf 5 (x.flatMap (bitsBE 8) ++
      List.replicate ((5 - (x.flatMap (bitsBE 8)).length % 5) % 5) false)) := by
  simp only [convertBits]
  norm_num

theorem convertBits_5_8_unpad (d5 : List Nat) (bits : List Bool) (p : Nat)
    (hfl : d5.flatMap (bitsBE 5) = bits ++ List.replicate p false)
    (hp : p ≤ 4) (h8 : bits.length % 8 = 0) :
    convertBits d5 5 8 false = Except.ok (groupsOf 8 bits) := by
  have hlen : (bits ++ List.replicate p false).length = bits.length + p := by
    simp
  have hmod : (bits.length + p) % 8 = p := by omega
  have hsub : bits.length + p - p = bits.length := by omega
  have hp4 : decide (p > 4) = false := decide_eq_false (by omega)
  simp only [convertBits]
  rw [hfl, hlen, hmod, hsub, List.take_left, List.drop_left,
    any_replicate_false, hp4]
  norm_num

theorem convertBits_roundtrip (x : List Nat) (hx : ∀ b ∈ x, b < 256) :
    ∃ d5, convertBits x 8 5 true = Except.ok d5 ∧ (∀ v ∈ d5, v < 32) ∧
      5 * d5.length = 8 * x.length + (5 - 8 * x.length % 5) % 5 ∧
      convertBits d5 5 8 false = Except.ok x := by
  have hb : (x.flatMap (bitsBE 8)).length = 8 * x.length :=
    length_flatMap_bitsBE 8 x
  refine ⟨groupsOf 5 (x.flatMap (bitsBE 8) ++
      List.replicate ((5 - (x.flatMap (bitsBE 8)).length % 5) % 5) false),
    convertBits_8_5_pad x, ?_, ?_, ?_⟩
  · exact fun v hv => groupsOf_all_lt 5 _ _ le_rfl v hv
  · have hpl : (x.flatMap (bitsBE 8) ++
        List.replicate ((5 - (x.flatMap (bitsBE 8)).length % 5) % 5)
          false).length
        = 8 * x.length + (5 - 8 * x.length % 5) % 5 := by
      simp [hb]
    have hdvd : 5 ∣ (x.flatMap (bitsBE 8) ++
        List.replicate ((5 - (x.flatMap (bitsBE 8)).length % 5) % 5)
          false).length := by
      rw [hpl]; omega
    have hfl := flatMap_bitsBE_groupsOf (k := 5) (by omega) _ _ le_rfl hdvd
    have h5 := length_flatMap_bitsBE 5 (groupsOf 5 (x.flatMap (bitsBE 8) ++
      List.replicate ((5 - (x.flatMap (bitsBE 8)).length % 5) % 5) false))
    rw [hfl, hpl] at h5
    omega
  · have hpl : (x.flatMap (bitsBE 8) ++
        List.replicate ((5 - (x.flatMap (bitsBE 8)).length % 5) % 5)
          false).length
        = 8 * x.length + (5 - 8 * x.length % 5) % 5 := by
      simp [hb]
    have hdvd : 5 ∣ (x.flatMap (bitsBE 8) ++
        List.replicate ((5 - (x.flatMap (bitsBE 8)).length % 5) % 5)
          false).length := by
      rw [hpl]; omega
    have hfl := flatMap_bitsBE_groupsOf (k := 5) (by omega) _ _ le_rfl hdvd
    rw [convertBits_5_8_unpad _ (x.flatMap (bitsBE 8))
      ((5 - (x.flatMap (bitsBE 8)).length % 5) % 5) hfl (by omega)
      (by rw [hb]; omega)]
    rw [groupsOf_flatMap_bitsBE (by omega) x hx]

/-! ## The bech32 checksum

Models `bech32Polymod`, `bech32HrpExpand`, the checksum writer and the
checksum verifier of `github.com/btcsuite/btcd/btcutil/bech32`
(`bech32.go`).  The Go accumulator `chk` is an `int` that stays below
`2 ^ 30` throughout, so plain `Nat` is a faithful model. -/

/-- The bech32 data charset `qpzry9x8gf2tvdw0s3jn54khce6mua7l`. -/
def bech32Charset : GoStr := "qpzry9x8gf2tvdw0s3jn54khce6mua7l".toList

/-- The five generator constants of `bech32Polymod`. -/
def bech32Gen : List Nat :=
  [0x3b6a57b2, 0x26508e6d, 0x1ea119fa, 0x3d4233dd, 0x2a1462b3]

/-- One iteration of the `bech32Polymod` loop: shift the accumulator,
mix in the next 5-bit value, and conditionally xor each generator
according to the top five bits that were shifted out. -/
def polymodStep (chk v : Nat) : Nat :=
  (List.range 5).foldl
    (fun acc i =>
      if ((chk >>> 25) >>> i) &&& 1 == 1 then acc ^^^ bech32Gen.getD i 0
      else acc)
    (((chk &&& 0x1ffffff) <<< 5) ^^^ v)

/-- Models `bech32Polymod`: fold the step over all values starting from 1. -/
def bech32Polymod (values : List Nat) : Nat := values.foldl polymodStep 1

/-- Models `bech32HrpExpand`: the high bits of each character, a zero,
then the low five bits of each character. -/
def bech32HrpExpand (hrp : GoStr) : List Nat :=
  hrp.map (fun c => c.toNat >>> 5) ++ [0] ++ hrp.map (fun c => c.toNat &&& 31)

/-- Models `bech32VerifyChecksum` for the bech32 version (constant 1):
the polymod of the expanded hrp followed by the data (which still includes
the 6 checksum values) must be 1. -/
def bech32VerifyChecksum (hrp : GoStr) (data : List Nat) : Bool :=
  bech32Polymod (bech32HrpExpand hrp ++ data) == 1

/-- Models `writeBech32Checksum` for the bech32 version (constant 1),
returning the six 5-bit checksum values (the Go code immediately maps them
through the charset; we keep the values and map separately). -/
def bech32ChecksumVals (hrp : GoStr) (data : List Nat) : List Nat :=
  let pm := bech32Polymod (bech32HrpExpand hrp ++ data ++ [0, 0, 0, 0, 0, 0])
    ^^^ 1
  (List.range 6).map (fun i => (pm >>> (5 * (5 - i))) &&& 31)

theorem foldl_condxor_xor (l : List Nat) (f : Nat → Nat) (cnd : Nat → Bool)
    (a v : Nat) :
    l.foldl (fun acc i => if cnd i then acc ^^^ f i else acc) (a ^^^ v)
      = l.foldl (fun acc i => if cnd i then acc ^^^ f i else acc) a ^^^ v := by
  induction l generalizing a with
  | nil => rfl
  | cons i l ih =>
    simp only [List.foldl_cons]
    by_cases h : cnd i
    · rw [if_pos h, if_pos h,
        show a ^^^ v ^^^ f i = (a ^^^ f i) ^^^ v by
          rw [Nat.xor_assoc, Nat.xor_assoc, Nat.xor_comm v (f i)]]
      exact ih (a ^^^ f i)
    · rw [if_neg h, if_neg h]
      exact ih a

theorem polymodStep_xor_v (chk v : Nat) :
    polymodStep chk v = polymodStep chk 0 ^^^ v := by
  unfold polymodStep
  rw [show ((chk &&& 0x1ffffff) <<< 5) ^^^ 0 = ((chk &&& 0x1ffffff) <<< 5)
    from Nat.xor_zero _]
  exact foldl_condxor_xor _ _ _ _ v

theorem xor_shiftLeft (x y k : Nat) :
    (x ^^^ y) <<< k = (x <<< k) ^^^ (y <<< k) := by
  apply Nat.eq_of_testBit_eq
  intro i
  simp only [Nat.testBit_shiftLeft, Nat.testBit_xor]
  rcases le_or_lt k i with h | h
  · simp [h]
  · simp [Nat.not_le.mpr h]

theorem shiftLeft_shiftLeft (x a b : Nat) :
    (x <<< a) <<< b = x <<< (a + b) := by
  simp [Nat.shiftLeft_eq, pow_add, Nat.mul_assoc]

theorem polymodStep_xor_acc (a e v : Nat) (he : e < 2 ^ 25) :
    polymodStep (a ^^^ e) v = polymodStep a v ^^^ (e <<< 5) := by
  unfold polymodStep
  have h1 : (a ^^^ e) >>> 25 = a >>> 25 := by
    apply Nat.eq_of_testBit_eq
    intro i
    simp only [Nat.testBit_shiftRight, Nat.testBit_xor]
    have he2 : e.testBit (25 + i) = false :=
      Nat.testBit_lt_two_pow
        (lt_of_lt_of_le he (Nat.pow_le_pow_right (by omega) (by omega)))
    simp [he2]
  have h2 : ((a ^^^ e) &&& 0x1ffffff) <<< 5
      = ((a &&& 0x1ffffff) <<< 5) ^^^ (e <<< 5) := by
    rw [Nat.and_xor_distrib_right,
      show (0x1ffffff : Nat) = 2 ^ 25 - 1 from rfl,
      Nat.and_pow_two_sub_one_of_lt_two_pow he]
    exact xor_shiftLeft _ _ _
  rw [h1, h2, Nat.xor_assoc, Nat.xor_comm (e <<< 5) v, ← Nat.xor_assoc]
  exact foldl_condxor_xor _ _ _ _ _

theorem foldl_condxor_lt (l : List Nat) (f : Nat → Nat) (cnd : Nat → Bool)
    (n : Nat) (hf : ∀ i ∈ l, f i < 2 ^ n) :
    ∀ a, a < 2 ^ n →
      l.foldl (fun acc i => if cnd i then acc ^^^ f i else acc) a < 2 ^ n := by
  induction l with
  | nil => intro a ha; exact ha
  | cons i l ih =>
    intro a ha
    simp only [List.foldl_cons]
    by_cases h : cnd i
    · rw [if_pos h]
      exact ih (fun j hj => hf j (List.mem_cons_of_mem i hj)) _
        (Nat.xor_lt_two_pow ha (hf i (List.mem_cons_self i l)))
    · rw [if_neg h]
      exact ih (fun j hj => hf j (List.mem_cons_of_mem i hj)) a ha

theorem polymodStep_lt (chk v : Nat) (hv : v < 2 ^ 30) :
    polymodStep chk v < 2 ^ 30 := by
  unfold polymodStep
  apply foldl_condxor_lt
  · intro i _
    have : bech32Gen.getD i 0 ≤ 0x3d4233dd := by
      rcases i with _ | _ | _ | _ | _ | i <;> simp [bech32Gen]
    omega
  · apply Nat.xor_lt_two_pow _ hv
    have hm : chk &&& 0x1ffffff < 2 ^ 25 :=
      Nat.and_lt_two_pow chk (by norm_num)
    rw [Nat.shiftLeft_eq]
    have : (chk &&& 0x1ffffff) * 2 ^ 5 < 2 ^ 25 * 2 ^ 5 :=
      Nat.mul_lt_mul_of_lt_of_le hm le_rfl (by norm_num)
    omega

theorem foldl_polymodStep_lt (values : List Nat)
    (hvs : ∀ v ∈ values, v < 2 ^ 30) :
    ∀ chk, chk < 2 ^ 30 → values.foldl polymodStep chk < 2 ^ 30 := by
  induction values with
  | nil => intro chk h; exact h
  | cons v values ih =>
    intro chk h
    simp only [List.foldl_cons]
    exact ih (fun w hw => hvs w (List.mem_cons_of_mem v hw)) _
      (polymodStep_lt chk v (hvs v (List.mem_cons_self v values)))

theorem xor_eq_add_of_disjoint {x b k : Nat} (hx : x % 2 ^ k = 0)
    (hb : b < 2 ^ k) : x ^^^ b = x + b := by
  obtain ⟨a, rfl⟩ : ∃ a, x = a * 2 ^ k :=
    ⟨x / 2 ^ k, (Nat.div_mul_cancel (Nat.dvd_of_mod_eq_zero hx)).symm⟩
  apply Nat.eq_of_testBit_eq
  intro i
  have hmod : (a * 2 ^ k + b) % 2 ^ k = b := by
    rw [Nat.mul_comm, Nat.mul_add_mod, Nat.mod_eq_of_lt hb]
  have hdiv : (a * 2 ^ k + b) / 2 ^ k = a := by
    rw [Nat.mul_comm, Nat.mul_add_div (Nat.two_pow_pos k),
      Nat.div_eq_of_lt hb]
    omega
  rcases le_or_lt k i with h | h
  · obtain ⟨j, rfl⟩ : ∃ j, i = k + j := ⟨i - k, by omega⟩
    have hright : (a * 2 ^ k + b).testBit (k + j)
        = ((a * 2 ^ k + b) >>> k).testBit j := (Nat.testBit_shiftRight _).symm
    rw [hright, Nat.shiftRight_eq_div_pow, hdiv, Nat.testBit_xor]
    have hb2 : b.testBit (k + j) = false :=
      Nat.testBit_lt_two_pow
        (lt_of_lt_of_le hb (Nat.pow_le_pow_right (by omega) (by omega)))
    rw [hb2, Bool.xor_false, ← Nat.shiftLeft_eq, Nat.testBit_shiftLeft]
    simp
  · have hge : decide (i ≥ k) = false := by simp; omega
    have hL : (a * 2 ^ k).testBit i = false := by
      rw [← Nat.shiftLeft_eq, Nat.testBit_shiftLeft, hge, Bool.false_and]
    rw [Nat.testBit_xor, hL, Bool.false_xor]
    have hR : (a * 2 ^ k + b).testBit i = b.testBit i := by
      conv_rhs => rw [← hmod]
      rw [Nat.testBit_mod_two_pow]
      simp [h]
    rw [hR]

theorem foldl_polymodStep_six (chk0 c0 c1 c2 c3 c4 c5 : Nat)
    (h0 : c0 < 2 ^ 5) (h1 : c1 < 2 ^ 5) (h2 : c2 < 2 ^ 5) (h3 : c3 < 2 ^ 5)
    (h4 : c4 < 2 ^ 5) (_h5 : c5 < 2 ^ 5) :
    List.foldl polymodStep chk0 [c0, c1, c2, c3, c4, c5]
      = List.foldl polymodStep chk0 [0, 0, 0, 0, 0, 0] ^^^
        (c5 ^^^ ((c4 ^^^ ((c3 ^^^ ((c2 ^^^ ((c1 ^^^ c0 <<< 5) <<< 5)) <<< 5))
          <<< 5)) <<< 5)) := by
  have hb2 : c1 ^^^ c0 <<< 5 < 2 ^ 10 :=
    Nat.xor_lt_two_pow (by omega) (by rw [Nat.shiftLeft_eq]; omega)
  have hb3 : c2 ^^^ (c1 ^^^ c0 <<< 5) <<< 5 < 2 ^ 15 :=
    Nat.xor_lt_two_pow (by omega) (by rw [Nat.shiftLeft_eq]; omega)
  have hb4 : c3 ^^^ (c2 ^^^ (c1 ^^^ c0 <<< 5) <<< 5) <<< 5 < 2 ^ 20 :=
    Nat.xor_lt_two_pow (by omega) (by rw [Nat.shiftLeft_eq]; omega)
  have hb5 : c4 ^^^ (c3 ^^^ (c2 ^^^ (c1 ^^^ c0 <<< 5) <<< 5) <<< 5) <<< 5
      < 2 ^ 25 :=
    Nat.xor_lt_two_pow (by omega) (by rw [Nat.shiftLeft_eq]; omega)
  simp only [List.foldl_cons, List.foldl_nil]
  rw [polymodStep_xor_v chk0 c0]
  rw [polymodStep_xor_acc (polymodStep chk0 0) c0 c1 (by omega)]
  rw [polymodStep_xor_v (polymodStep chk0 0) c1]
  rw [Nat.xor_assoc (polymodStep (polymodStep chk0 0) 0) c1 (c0 <<< 5)]
  rw [polymodStep_xor_acc (polymodStep (polymodStep chk0 0) 0)
    (c1 ^^^ c0 <<< 5) c2 (by omega)]
  rw [polymodStep_xor_v (polymodStep (polymodStep chk0 0) 0) c2]
  rw [Nat.xor_assoc (polymodStep (polymodStep (polymodStep chk0 0) 0) 0) c2
    ((c1 ^^^ c0 <<< 5) <<< 5)]
  rw [polymodStep_xor_acc (polymodStep (polymodStep (polymodStep chk0 0) 0) 0)
    (c2 ^^^ (c1 ^^^ c0 <<< 5) <<< 5) c3 (by omega)]
  rw [polymodStep_xor_v
    (polymodStep (polymodStep (polymodStep chk0 0) 0) 0) c3]
  rw [Nat.xor_assoc
    (polymodStep (polymodStep (polymodStep (polymodStep chk0 0) 0) 0) 0) c3
    ((c2 ^^^ (c1 ^^^ c0 <<< 5) <<< 5) <<< 5)]
  rw [polymodStep_xor_acc
    (polymodStep (polymodStep (polymodStep (polymodStep chk0 0) 0) 0) 0)
    (c3 ^^^ (c2 ^^^ (c1 ^^^ c0 <<< 5) <<< 5) <<< 5) c4 (by omega)]
  rw [polymodStep_xor_v
    (polymodStep (polymodStep (polymodStep (polymodStep chk0 0) 0) 0) 0) c4]
  rw [Nat.xor_assoc
    (polymodStep (polymodStep (polymodStep (polymodStep (polymodStep chk0 0)
      0) 0) 0) 0) c4
    ((c3 ^^^ (c2 ^^^ (c1 ^^^ c0 <<< 5) <<< 5) <<< 5) <<< 5)]
  rw [polymodStep_xor_acc
    (polymodStep (polymodStep (polymodStep (polymodStep (polymodStep chk0 0)
      0) 0) 0) 0)
    (c4 ^^^ (c3 ^^^ (c2 ^^^ (c1 ^^^ c0 <<< 5) <<< 5) <<< 5) <<< 5) c5 hb5]
  rw [polymodStep_xor_v
    (polymodStep (polymodStep (polymodStep (polymodStep (polymodStep chk0 0)
      0) 0) 0) 0) c5]
  rw [Nat.xor_assoc
    (polymodStep (polymodStep (polymodStep (polymodStep (polymodStep
      (polymodStep chk0 0) 0) 0) 0) 0) 0) c5
    ((c4 ^^^ (c3 ^^^ (c2 ^^^ (c1 ^^^ c0 <<< 5) <<< 5) <<< 5) <<< 5) <<< 5)]

theorem checksum_chunks_reassemble (pm : Nat) (hpm : pm < 2 ^ 30) :
    (pm &&& 31) ^^^ (((pm >>> 5 &&& 31) ^^^ (((pm >>> 10 &&& 31) ^^^
      (((pm >>> 15 &&& 31) ^^^ (((pm >>> 20 &&& 31) ^^^
        (pm >>> 25 &&& 31) <<< 5) <<< 5)) <<< 5)) <<< 5)) <<< 5) = pm := by
  have h31 : ∀ y : Nat, y &&& 31 = y % 32 := by
    intro y
    have h := Nat.and_pow_two_sub_one_eq_mod y 5
    norm_num at h
    exact h
  simp only [xor_shiftLeft, shiftLeft_shiftLeft, h31,
    Nat.shiftRight_eq_div_pow]
  norm_num
  simp only [Nat.shiftLeft_eq]
  norm_num
  have e1 : pm / 1048576 % 32 * 1048576 ^^^ pm / 33554432 % 32 * 33554432
      = pm / 33554432 % 32 * 33554432 + pm / 1048576 % 32 * 1048576 := by
    rw [Nat.xor_comm]
    exact xor_eq_add_of_disjoint (k := 25) (by omega) (by omega)
  rw [e1]
  have e2 : pm / 32768 % 32 * 32768 ^^^
      (pm / 33554432 % 32 * 33554432 + pm / 1048576 % 32 * 1048576)
      = pm / 33554432 % 32 * 33554432 + pm / 1048576 % 32 * 1048576
        + pm / 32768 % 32 * 32768 := by
    rw [Nat.xor_comm]
    exact xor_eq_add_of_disjoint (k := 20) (by omega) (by omega)
  rw [e2]
  have e3 : pm / 1024 % 32 * 1024 ^^^
      (pm / 33554432 % 32 * 33554432 + pm / 1048576 % 32 * 1048576
        + pm / 32768 % 32 * 32768)
      = pm / 33554432 % 32 * 33554432 + pm / 1048576 % 32 * 1048576
        + pm / 32768 % 32 * 32768 + pm / 1024 % 32 * 1024 := by
    rw [Nat.xor_comm]
    exact xor_eq_add_of_disjoint (k := 15) (by omega) (by omega)
  rw [e3]
  have e4 : pm / 32 % 32 * 32 ^^^
      (pm / 33554432 % 32 * 33554432 + pm / 1048576 % 32 * 1048576
        + pm / 32768 % 32 * 32768 + pm / 1024 % 32 * 1024)
      = pm / 33554432 % 32 * 33554432 + pm / 1048576 % 32 * 1048576
        + pm / 32768 % 32 * 32768 + pm / 1024 % 32 * 1024
        + pm / 32 % 32 * 32 := by
    rw [Nat.xor_comm]
    exact xor_eq_add_of_disjoint (k := 10) (by omega) (by omega)
  rw [e4]
  have e5 : pm % 32 ^^^
      (pm / 33554432 % 32 * 33554432 + pm / 1048576 % 32 * 1048576
        + pm / 32768 % 32 * 32768 + pm / 1024 % 32 * 1024
        + pm / 32 % 32 * 32)
      = pm / 33554432 % 32 * 33554432 + pm / 1048576 % 32 * 1048576
        + pm / 32768 % 32 * 32768 + pm / 1024 % 32 * 1024
        + pm / 32 % 32 * 32 + pm % 32 := by
    rw [Nat.xor_comm]
    exact xor_eq_add_of_disjoint (k := 5) (by omega) (by omega)
  rw [e5]
  omega

theorem char_toNat_lt_two_pow_30 (c : Char) : c.toNat < 2 ^ 30 := by
  have h := c.valid
  have h1 : c.val.toNat < 0x110000 := by
    rcases h with h | h
    · have h2 := UInt32.toNat_lt_of_lt (n := c.val) (m := 0xd800)
        (by norm_num) h
      omega
    · exact UInt32.toNat_lt_of_lt (by norm_num) h.2
  have h2 : c.toNat = c.val.toNat := rfl
  omega

theorem bech32HrpExpand_lt (hrp : GoStr) :
    ∀ v ∈ bech32HrpExpand hrp, v < 2 ^ 30 := by
  intro v hv
  unfold bech32HrpExpand at hv
  rcases List.mem_append.mp hv with hv | hv
  · rcases List.mem_append.mp hv with hv | hv
    · obtain ⟨c, _, rfl⟩ := List.mem_map.mp hv
      have hc := char_toNat_lt_two_pow_30 c
      rw [Nat.shiftRight_eq_div_pow]
      omega
    · simp at hv
      omega
  · obtain ⟨c, _, rfl⟩ := List.mem_map.mp hv
    have h31 : c.toNat &&& 31 < 2 ^ 5 := Nat.and_lt_two_pow _ (by norm_num)
    omega

theorem polymod_with_checksum (vs : List Nat) (hvs : ∀ v ∈ vs, v < 2 ^ 30) :
    bech32Polymod (vs ++ (List.range 6).map (fun i =>
      ((bech32Polymod (vs ++ [0, 0, 0, 0, 0, 0]) ^^^ 1) >>> (5 * (5 - i)))
        &&& 31)) = 1 := by
  have hchk0 : List.foldl polymodStep 1 vs < 2 ^ 30 :=
    foldl_polymodStep_lt vs hvs 1 (by norm_num)
  have hZ : bech32Polymod (vs ++ [0, 0, 0, 0, 0, 0]) < 2 ^ 30 := by
    unfold bech32Polymod
    rw [List.foldl_append]
    exact foldl_polymodStep_lt _ (by intro v hv; simp at hv; omega) _ hchk0
  have hpm : bech32Polymod (vs ++ [0, 0, 0, 0, 0, 0]) ^^^ 1 < 2 ^ 30 :=
    Nat.xor_lt_two_pow hZ (by norm_num)
  set pm := bech32Polymod (vs ++ [0, 0, 0, 0, 0, 0]) ^^^ 1 with hpmdef
  have hmap : (List.range 6).map (fun i => (pm >>> (5 * (5 - i))) &&& 31)
      = [pm >>> 25 &&& 31, pm >>> 20 &&& 31, pm >>> 15 &&& 31,
         pm >>> 10 &&& 31, pm >>> 5 &&& 31, pm &&& 31] := by
    have h6 : List.range 6 = [0, 1, 2, 3, 4, 5] := rfl
    rw [h6]
    simp only [List.map_cons, List.map_nil]
    norm_num
  rw [hmap]
  unfold bech32Polymod
  rw [List.foldl_append]
  rw [foldl_polymodStep_six _ _ _ _ _ _ _
    (Nat.and_lt_two_pow _ (by norm_num)) (Nat.and_lt_two_pow _ (by norm_num))
    (Nat.and_lt_two_pow _ (by norm_num)) (Nat.and_lt_two_pow _ (by norm_num))
    (Nat.and_lt_two_pow _ (by norm_num)) (Nat.and_lt_two_pow _ (by norm_num))]
  rw [checksum_chunks_reassemble pm hpm]
  have hzz : List.foldl polymodStep (List.foldl polymodStep 1 vs)
      [0, 0, 0, 0, 0, 0] = bech32Polymod (vs ++ [0, 0, 0, 0, 0, 0]) := by
    unfold bech32Polymod
    rw [List.foldl_append]
  rw [hzz, hpmdef, ← Nat.xor_assoc, Nat.xor_self, Nat.zero_xor]

theorem bech32VerifyChecksum_create (hrp : GoStr) (data : List Nat)
    (hd : ∀ v ∈ data, v < 2 ^ 30) :
    bech32VerifyChecksum hrp (data ++ bech32ChecksumVals hrp data) = true := by
  simp only [bech32VerifyChecksum, bech32ChecksumVals, beq_iff_eq]
  rw [← List.append_assoc]
  apply polymod_with_checksum (bech32HrpExpand hrp ++ data)
  intro v hv
  rcases List.mem_append.mp hv with h | h
  · exact bech32HrpExpand_lt hrp v h
  · exact hd v h

/-! ## bech32 string encoding and decoding -/

/-- Models `toBytes` from the bech32 library: each data character is
converted to its index in the charset; a character outside the charset is
an error. -/
def toBytes : GoStr → Except String (List Nat)
  | [] => Except.ok []
  | c :: rest =>
    match bech32Charset.findIdx? (fun d => d == c) with
    | none => Except.error "invalid character not part of charset"
    | some i => (toBytes rest).map (fun bs => i :: bs)

/-- Models `strings.LastIndexByte(bech, '1')`: the index of the last
occurrence of the separator, if any. -/
def lastIndexOfOne : GoStr → Option Nat
  | [] => none
  | c :: rest =>
    match lastIndexOfOne rest with
    | some i => some (i + 1)
    | none => if c == '1' then some 0 else none

/-- Models `bech32.Decode` (which enforces the 90-character limit and then
calls `decodeNoLimit`): checks the length bounds, the printable-ASCII
character range, the mixed-case rule (lowercasing an all-uppercase string),
locates the last separator `1`, converts the data part to 5-bit values and
verifies the checksum, returning the human-readable part and the data with
the 6 checksum values removed. -/
def bech32Decode (bech : GoStr) : Except String (GoStr × List Nat) :=
  if bech.length > 90 then Except.error "invalid bech32 string length"
  else if bech.length < 8 then Except.error "invalid bech32 string length"
  else if bech.any (fun c => c.toNat < 33 || c.toNat > 126) then
    Except.error "invalid character"
  else if bech.any isAsciiLower && bech.any isAsciiUpper then
    Except.error "string not all lowercase or all uppercase"
  else
    let lower := if bech.any isAsciiUpper then bech.map asciiToLower else bech
    match lastIndexOfOne lower with
    | none => Except.error "invalid separator index"
    | some one =>
      if one < 1 || one + 7 > lower.length then
        Except.error "invalid separator index"
      else
        match toBytes (lower.drop (one + 1)) with
        | Except.error e => Except.error e
        | Except.ok decoded =>
          if bech32VerifyChecksum (lower.take one) decoded then
            Except.ok (lower.take one, decoded.take (decoded.length - 6))
          else Except.error "invalid checksum"

/-- Models `bech32.Encode` (`encodeGeneric` with the bech32 version): the
hrp is lowercased, every data byte must fit the charset, and the result is
`hrp ++ "1" ++ data chars ++ checksum chars`. -/
def bech32Encode (hrp : GoStr) (data : List Nat) : Except String GoStr :=
  let lhrp := hrp.map asciiToLower
  if data.any (fun b => 32 ≤ b) then Except.error "invalid data byte"
  else
    Except.ok (lhrp ++ '1' ::
      (data.map (fun v => bech32Charset.getD v ' ') ++
        (bech32ChecksumVals lhrp data).map (fun v => bech32Charset.getD v ' ')))

/-! ## Hex codec (Go `encoding/hex`) -/

/-- The lowercase hex digit table used by `hex.EncodeToString`. -/
def hexDigits : GoStr := "0123456789abcdef".toList

/-- Models `hex.EncodeToString`: two lowercase digits per byte, high
nibble first. -/
def hexEncode (bs : List Nat) : GoStr :=
  bs.flatMap (fun b => [hexDigits.getD (b >>> 4) ' ', hexDigits.getD (b &&& 15) ' '])

/-- The value of one hex digit character, models the byte-wise table of
`hex.Decode`; accepts `0-9`, `a-f` and `A-F`. -/
def hexDigitVal (c : Char) : Option Nat :=
  if 48 ≤ c.toNat && c.toNat ≤ 57 then some (c.toNat - 48)
  else if 97 ≤ c.toNat && c.toNat ≤ 102 then some (c.toNat - 97 + 10)
  else if 65 ≤ c.toNat && c.toNat ≤ 70 then some (c.toNat - 65 + 10)
  else none

/-- Models `hex.DecodeString`: decodes pairs of hex digits into bytes,
failing on an odd-length string or a non-hex character. -/
def hexDecode : GoStr → Except String (List Nat)
  | [] => Except.ok []
  | [_] => Except.error "odd length hex string"
  | c1 :: c2 :: rest =>
    match hexDigitVal c1, hexDigitVal c2 with
    | some hi, some lo => (hexDecode rest).map (fun bs => (16 * hi + lo) :: bs)
    | _, _ => Except.error "invalid byte in hex string"

/-! ## The repository codec functions

`npubToHex` and `hexToNpub` as written in the repository variant that
returns errors (the file also containing `processDirectMessage` for
kind-4 events), and the error-swallowing `hexToNpub` of `main.go`. -/

/-- Models `npubToHex`: bech32-decode, require hrp `npub`, regroup the
5-bit data into bytes without padding, and hex-encode.  Note that the
function performs no check on the length of the decoded payload. -/
def npubToHex (npub : GoStr) : Except String GoStr :=
  match bech32Decode npub with
  | Except.error e => Except.error e
  | Except.ok (hrp, data) =>
    if hrp ≠ "npub".toList then
      Except.error "invalid human readable part"
    else
      match convertBits data 5 8 false with
      | Except.error e => Except.error e
      | Except.ok converted => Except.ok (hexEncode converted)

/-- Models `hexToNpub` (error-returning variant): hex-decode, regroup the
bytes into padded 5-bit groups, and bech32-encode with hrp `npub`. -/
def hexToNpub (hexPubkey : GoStr) : Except String GoStr :=
  match hexDecode hexPubkey with
  | Except.error e => Except.error e
  | Except.ok pubkeyBytes =>
    match convertBits pubkeyBytes 8 5 true with
    | Except.error e => Except.error e
    | Except.ok converted => bech32Encode "npub".toList converted

/-- Models `hexToNpub` from `main.go`, which never fails: on any error it
falls back to the truncated placeholder
`"npub1" + hexPubkey[:min(32, len(hexPubkey))] + "..."`. -/
def hexToNpubF (hexPubkey : GoStr) : GoStr :=
  match hexDecode hexPubkey with
  | Except.error _ =>
    "npub1".toList ++ hexPubkey.take (min 32 hexPubkey.length) ++ "...".toList
  | Except.ok pubkeyBytes =>
    match convertBits pubkeyBytes 8 5 true with
    | Except.error _ =>
      "npub1".toList ++ hexPubkey.take (min 32 hexPubkey.length) ++ "...".toList
    | Except.ok converted =>
      match bech32Encode "npub".toList converted with
      | Except.error _ =>
        "npub1".toList ++ hexPubkey.take (min 32 hexPubkey.length) ++ "...".toList
      | Except.ok npub => npub

theorem hexDigitVal_hexDigits :
    ∀ v < 16, hexDigitVal (hexDigits.getD v ' ') = some v := by decide

theorem charset_findIdx_getD :
    ∀ v < 32, bech32Charset.findIdx?
      (fun d => d == bech32Charset.getD v ' ') = some v := by decide

theorem toBytes_map_charset (vals : List Nat) (h : ∀ v ∈ vals, v < 32) :
    toBytes (vals.map (fun v => bech32Charset.getD v ' '))
      = Except.ok vals := by
  induction vals with
  | nil => rfl
  | cons v vals ih =>
    simp only [List.map_cons, toBytes]
    rw [charset_findIdx_getD v (h v (List.mem_cons_self v vals)),
      ih (fun w hw => h w (List.mem_cons_of_mem v hw))]
    rfl

theorem hexDecode_hexEncode (bs : List Nat) (h : ∀ b ∈ bs, b < 256) :
    hexDecode (hexEncode bs) = Except.ok bs := by
  induction bs with
  | nil => rfl
  | cons b bs ih =>
    have hb := h b (List.mem_cons_self b bs)
    have h1 : b >>> 4 < 16 := by rw [Nat.shiftRight_eq_div_pow]; omega
    have h2 : b &&& 15 < 16 :=
      Nat.and_lt_two_pow b (show 15 < 2 ^ 4 by norm_num)
    have hrec : 16 * (b >>> 4) + (b &&& 15) = b := by
      have h15 := Nat.and_pow_two_sub_one_eq_mod b 4
      norm_num at h15
      rw [Nat.shiftRight_eq_div_pow, h15]
      omega
    simp only [hexEncode, List.flatMap_cons, List.cons_append,
      List.nil_append]
    rw [hexDecode]
    rw [hexDigitVal_hexDigits _ h1, hexDigitVal_hexDigits _ h2]
    rw [show bs.flatMap (fun b => [hexDigits.getD (b >>> 4) ' ',
      hexDigits.getD (b &&& 15) ' ']) = hexEncode bs from rfl]
    rw [ih (fun w hw => h w (List.mem_cons_of_mem b hw))]
    simp [hrec, Except.map]

theorem bech32Charset_chars :
    ∀ c ∈ bech32Charset,
      (33 ≤ c.toNat ∧ c.toNat ≤ 126) ∧ isAsciiUpper c = false ∧
        ¬ c = '1' := by decide

theorem npub_lower : ("npub".toList : GoStr).map asciiToLower
    = "npub".toList := by decide

theorem npub_chars :
    ∀ c ∈ ("npub".toList : GoStr),
      (33 ≤ c.toNat ∧ c.toNat ≤ 126) ∧ isAsciiUpper c = false ∧
        ¬ c = '1' := by decide

theorem lastIndexOfOne_eq_none (l : GoStr) (h : ∀ c ∈ l, ¬ c = '1') :
    lastIndexOfOne l = none := by
  induction l with
  | nil => rfl
  | cons c l ih =>
    rw [lastIndexOfOne, ih (fun d hd => h d (List.mem_cons_of_mem c hd))]
    simp [h c (List.mem_cons_self c l)]

theorem lastIndexOfOne_append (pre post : GoStr)
    (h : ∀ c ∈ post, ¬ c = '1') :
    lastIndexOfOne (pre ++ '1' :: post) = some pre.length := by
  induction pre with
  | nil =>
    rw [List.nil_append, lastIndexOfOne, lastIndexOfOne_eq_none post h]
    simp
  | cons c pre ih =>
    rw [List.cons_append, lastIndexOfOne, ih]
    simp

theorem bech32ChecksumVals_length (hrp : GoStr) (data : List Nat) :
    (bech32ChecksumVals hrp data).length = 6 := by
  simp [bech32ChecksumVals]

theorem bech32ChecksumVals_lt (hrp : GoStr) (data : List Nat) :
    ∀ v ∈ bech32ChecksumVals hrp data, v < 32 := by
  intro v hv
  simp only [bech32ChecksumVals] at hv
  obtain ⟨i, _, rfl⟩ := List.mem_map.mp hv
  have := Nat.and_lt_two_pow
    ((bech32Polymod (bech32HrpExpand hrp ++ data ++ [0, 0, 0, 0, 0, 0]) ^^^ 1)
      >>> (5 * (5 - i))) (show 31 < 2 ^ 5 by norm_num)
  omega

theorem bech32Decode_bech32Encode (data : List Nat) (hlen : data.length = 52)
    (hdata : ∀ v ∈ data, v < 32) :
    bech32Encode "npub".toList data
        = Except.ok ("npub".toList ++ '1' ::
            (data ++ bech32ChecksumVals "npub".toList data).map
              (fun v => bech32Charset.getD v ' ')) ∧
      bech32Decode ("npub".toList ++ '1' ::
            (data ++ bech32ChecksumVals "npub".toList data).map
              (fun v => bech32Charset.getD v ' '))
        = Except.ok ("npub".toList, data) := by
  have hcslen : (bech32ChecksumVals "npub".toList data).length = 6 :=
    bech32ChecksumVals_length _ _
  have hcslt := bech32ChecksumVals_lt "npub".toList data
  have hbothlt : ∀ v ∈ data ++ bech32ChecksumVals "npub".toList data,
      v < 32 := by
    intro v hv
    rcases List.mem_append.mp hv with h | h
    · exact hdata v h
    · exact hcslt v h
  have hbodylen : ((data ++ bech32ChecksumVals "npub".toList data).map
      (fun v => bech32Charset.getD v ' ')).length = 58 := by
    simp [hlen, bech32ChecksumVals]
  have hcharsetlen : bech32Charset.length = 32 := by decide
  have hbodychars : ∀ c ∈ (data ++ bech32ChecksumVals "npub".toList data).map
      (fun v => bech32Charset.getD v ' '),
      (33 ≤ c.toNat ∧ c.toNat ≤ 126) ∧ isAsciiUpper c = false ∧
        ¬ c = '1' := by
    intro c hc
    obtain ⟨v, hv, rfl⟩ := List.mem_map.mp hc
    have hv32 : v < 32 := hbothlt v hv
    have hvlen : v < bech32Charset.length := by omega
    have hget : bech32Charset.getD v ' ' = bech32Charset[v] :=
      List.getD_eq_getElem _ _ hvlen
    rw [hget]
    exact bech32Charset_chars _ (List.getElem_mem hvlen)
  constructor
  · simp only [bech32Encode, npub_lower]
    rw [if_neg ?noerr]
    case noerr =>
      simp only [List.any_eq_true, decide_eq_true_eq, not_exists, not_and]
      intro v hv
      exact Nat.not_le.mpr (hdata v hv)
    rw [List.map_append]
  · have hslen : ("npub".toList ++ '1' ::
        (data ++ bech32ChecksumVals "npub".toList data).map
          (fun v => bech32Charset.getD v ' ')).length = 63 := by
      simp [hlen, bech32ChecksumVals]
    have hschars : ∀ c ∈ "npub".toList ++ '1' ::
        (data ++ bech32ChecksumVals "npub".toList data).map
          (fun v => bech32Charset.getD v ' '),
        (33 ≤ c.toNat ∧ c.toNat ≤ 126) ∧ isAsciiUpper c = false := by
      intro c hc
      rcases List.mem_append.mp hc with h | h
      · exact ⟨(npub_chars c h).1, (npub_chars c h).2.1⟩
      · rcases List.mem_cons.mp h with h | h
        · subst h
          exact ⟨by decide, by decide⟩
        · exact ⟨(hbodychars c h).1, (hbodychars c h).2.1⟩
    have hrange : (("npub".toList ++ '1' ::
        (data ++ bech32ChecksumVals "npub".toList data).map
          (fun v => bech32Charset.getD v ' ')).any
        (fun c => c.toNat < 33 || c.toNat > 126)) = false := by
      rw [List.any_eq_false]
      intro c hc
      have h := (hschars c hc).1
      simp only [Bool.or_eq_true, decide_eq_true_eq, not_or]
      omega
    have hupper : (("npub".toList ++ '1' ::
        (data ++ bech32ChecksumVals "npub".toList data).map
          (fun v => bech32Charset.getD v ' ')).any isAsciiUpper) = false := by
      rw [List.any_eq_false]
      intro c hc
      have h := (hschars c hc).2
      simp [h]
    set body := (data ++ bech32ChecksumVals "npub".toList data).map
      (fun v => bech32Charset.getD v ' ') with hbodydef
    have hbody1 : ∀ c ∈ body, ¬ c = '1' := fun c hc => (hbodychars c hc).2.2
    have hd30 : ∀ v ∈ data, v < 2 ^ 30 := by
      intro v hv
      have := hdata v hv
      omega
    have hnp4 : ("npub".toList : GoStr).length = 4 := rfl
    have hassoc : "npub".toList ++ '1' :: body
        = ("npub".toList ++ ['1']) ++ body := by simp
    have hdrop : ("npub".toList ++ '1' :: body).drop (4 + 1) = body := by
      rw [hassoc]
      exact List.drop_left' (by simp)
    have htake : ("npub".toList ++ '1' :: body).take 4 = "npub".toList :=
      List.take_left' hnp4
    have htb : toBytes body
        = Except.ok (data ++ bech32ChecksumVals "npub".toList data) := by
      rw [hbodydef]
      exact toBytes_map_charset _ hbothlt
    have hverify := bech32VerifyChecksum_create "npub".toList data hd30
    have hdcslen : (data ++ bech32ChecksumVals "npub".toList data).length
        = 58 := by
      simp [hlen, bech32ChecksumVals]
    simp only [bech32Decode]
    rw [if_neg (by rw [hslen]; omega)]
    rw [if_neg (by rw [hslen]; omega)]
    rw [hrange, hupper, Bool.and_false]
    simp only [Bool.false_eq_true, if_false]
    rw [lastIndexOfOne_append "npub".toList body hbody1, hnp4]
    simp only [hslen]
    rw [show (decide ((4 : Nat) < 1) || decide (4 + 7 > 63)) = false
      from by decide]
    simp only [Bool.false_eq_true, if_false]
    rw [hdrop, htb]
    simp only [htake, hverify, if_pos]
    rw [hdcslen]
    rw [show (58 : Nat) - 6 = 52 from rfl]
    rw [List.take_left' hlen]

theorem hexToNpub_npubToHex_aux (x : List Nat) (hx32 : x.length = 32)
    (hx : ∀ b ∈ x, b < 256) :
    ∃ d5, convertBits x 8 5 true = Except.ok d5 ∧ d5.length = 52 ∧
      (∀ v ∈ d5, v < 32) ∧ convertBits d5 5 8 false = Except.ok x := by
  obtain ⟨d5, hconv1, hd5lt, hd5len, hconv2⟩ := convertBits_roundtrip x hx
  refine ⟨d5, hconv1, ?_, hd5lt, hconv2⟩
  rw [hx32] at hd5len
  omega

theorem codec_roundtrip (x : List Nat) (hx32 : x.length = 32)
    (hx : ∀ b ∈ x, b < 256) :
    ∃ npub, hexToNpub (hexEncode x) = Except.ok npub ∧
      npubToHex npub = Except.ok (hexEncode x) := by
  obtain ⟨d5, hconv1, hlen52, hd5lt, hconv2⟩ :=
    hexToNpub_npubToHex_aux x hx32 hx
  obtain ⟨henc, hdec⟩ := bech32Decode_bech32Encode d5 hlen52 hd5lt
  refine ⟨"npub".toList ++ '1' ::
    (d5 ++ bech32ChecksumVals "npub".toList d5).map
      (fun v => bech32Charset.getD v ' '), ?_, ?_⟩
  · unfold hexToNpub
    rw [hexDecode_hexEncode x hx]
    simp only []
    rw [hconv1]
    simp only []
    exact henc
  · unfold npubToHex
    rw [hdec]
    simp only []
    rw [if_neg (by simp)]
    rw [hconv2]

/-! ## The event pipeline of `main.go` -/

/-- Models the `User` struct (the fields the pipeline reads). -/
structure User where
  username : GoStr
  email : GoStr
  nostrNpub : GoStr
deriving DecidableEq

/-- Models the `NostrEvent` struct. -/
structure NostrEvent where
  id : GoStr
  pubkey : GoStr
  created_at : Int
  kind : Int
  tags : List (List GoStr)
  content : GoStr
  sig : GoStr
deriving DecidableEq

/-- One row of the `processed_notes` table created by `initSQLiteDB`:
`event_id TEXT PRIMARY KEY, processed_at DATETIME DEFAULT
CURRENT_TIMESTAMP, relay_url TEXT, user_email TEXT`.  The timestamp
filled in by SQLite is modelled as an opaque `Nat` supplied at insert
time. -/
structure ProcessedRow where
  event_id : GoStr
  processed_at : Nat
  relay_url : GoStr
  user_email : GoStr
deriving DecidableEq

/-- Models `isNoteProcessed`: `SELECT COUNT(*) FROM processed_notes WHERE
event_id = ?` compared with 0. -/
def isNoteProcessed (rows : List ProcessedRow) (eventID : GoStr) : Bool :=
  rows.any (fun r => r.event_id == eventID)

/-- Models `markNoteProcessed`: `INSERT OR IGNORE INTO processed_notes
(event_id, relay_url, user_email) VALUES (?, ?, ?)`.  Because `event_id`
is the primary key, the insert is skipped (and the statement still
succeeds) when a row with the same event id already exists; `now` models
the `CURRENT_TIMESTAMP` default. -/
def markNoteProcessed (rows : List ProcessedRow)
    (eventID relayURL userEmail : GoStr) (now : Nat) : List ProcessedRow :=
  if rows.any (fun r => r.event_id == eventID) then rows
  else rows ++ [⟨eventID, now, relayURL, userEmail⟩]

/-- An email notification job handed to the `EmailService`
(`ProcessNostrMention` / `ProcessNostrDirectMessage`). -/
structure EmailJob where
  recipient : User
  event : NostrEvent
  senderNIP5 : GoStr
  isDM : Bool
deriving DecidableEq

/-- The observable state of the pipeline: the SQLite dedup table and the
emails handed to the email service. -/
structure PipelineState where
  processed : List ProcessedRow
  emails : List EmailJob
deriving DecidableEq

/-- The possible outcomes of the MongoDB `users` lookup performed by
`verifyNIP5FromDB`: a document with the npub exists, none exists
(`mongo.ErrNoDocuments`), or the query itself fails. -/
inductive DirectoryResult
  | found (username : GoStr)
  | notFound
  | lookupError
deriving DecidableEq

/-- The external identity directory, as a function from npub to lookup
outcome. -/
abbrev Directory := GoStr → DirectoryResult

/-- Models `verifyNIP5FromDB` from `main.go`: the hex pubkey is converted
to npub with the error-swallowing `hexToNpub` and looked up in the
directory; returns `(isVerified, senderNIP5, err)` where a found user
yields the label `username@trustroots.org`. -/
def verifyNIP5FromDB (dir : Directory) (pubkey : GoStr) :
    Bool × GoStr × Bool :=
  match dir (hexToNpubF pubkey) with
  | DirectoryResult.found username =>
    (true, username ++ "@trustroots.org".toList, false)
  | DirectoryResult.notFound => (false, [], false)
  | DirectoryResult.lookupError => (false, [], true)

/-- Helper for `goContains`: is `sub` a prefix of `s`. -/
def startsWith : GoStr → GoStr → Bool
  | _, [] => true
  | [], _ :: _ => false
  | c :: s, d :: t => c == d && startsWith s t

/-- Models Go `strings.Contains(s, sub)`: `sub` occurs somewhere in `s`. -/
def goContains (s sub : GoStr) : Bool :=
  (List.range (s.length + 1)).any (fun i => startsWith (s.drop i) sub)

/-- Models `mentionsNpub`: the content contains the npub string, or some
tag is `["p", npub, ...]`. -/
def mentionsNpub (event : NostrEvent) (npub : GoStr) : Bool :=
  goContains event.content npub ||
  event.tags.any (fun tag =>
    decide (2 ≤ tag.length) && (tag.getD 0 [] == "p".toList)
      && (tag.getD 1 [] == npub))

/-- Models Go `strings.ToLower` (ASCII). -/
def toLowerStr (s : GoStr) : GoStr := s.map asciiToLower

/-- The literal `abbreviations` map of `mentionsUser`. -/
def abbreviationFor (username : GoStr) : Option GoStr :=
  if username == "thefriendlyhost".toList then some "tfh".toList
  else if username == "nostroots".toList then some "nostr".toList
  else if username == "nospoons".toList then some "nospoons".toList
  else none

/-- Models `mentionsUser`: npub mention, case-insensitive username
containment, the username variations, or the registered abbreviation. -/
def mentionsUser (event : NostrEvent) (user : User) : Bool :=
  mentionsNpub event user.nostrNpub ||
  goContains (toLowerStr event.content) (toLowerStr user.username) ||
  [toLowerStr user.username,
   '@' :: toLowerStr user.username,
   '@' :: user.username].any
    (fun variation => goContains (toLowerStr event.content) variation) ||
  (match abbreviationFor user.username with
   | some abbr => goContains (toLowerStr event.content) abbr
   | none => false)

/-- Models `isDirectMessageForUser` from `main.go`: some tag is
`["p", user.NostrNpub, ...]`. -/
def isDirectMessageForUser (event : NostrEvent) (user : User) : Bool :=
  event.tags.any (fun tag =>
    decide (2 ≤ tag.length) && (tag.getD 0 [] == "p".toList)
      && (tag.getD 1 [] == user.nostrNpub))

/-- A character of the standard base64 alphabet (`A-Z`, `a-z`, `0-9`,
`+`, `/`). -/
def isBase64Char (c : Char) : Bool :=
  (65 ≤ c.toNat && c.toNat ≤ 90) || (97 ≤ c.toNat && c.toNat ≤ 122) ||
  (48 ≤ c.toNat && c.toNat ≤ 57) || c == '+' || c == '/'

/-- Checks a base64 string quantum by quantum: each quantum is four
characters, `=` padding may close only the final quantum (`xx==` or
`xxx=`); the empty string is valid. -/
def base64Quantums : GoStr → Bool
  | [] => true
  | c1 :: c2 :: c3 :: c4 :: rest =>
    isBase64Char c1 && isBase64Char c2 &&
      (if c3 == '=' then c4 == '=' && rest.isEmpty
       else isBase64Char c3 &&
         (if c4 == '=' then rest.isEmpty
          else isBase64Char c4 && base64Quantums rest))
  | _ => false

/-- Models the success condition of `base64.StdEncoding.DecodeString`:
newline characters (CR and LF) are ignored and the rest must be valid
padded 4-character base64 quantums. -/
def goBase64Valid (s : GoStr) : Bool :=
  base64Quantums (s.filter (fun c => !(c == '\r') && !(c == '\n')))

/-- Models `validateNIP4Message`: the content must decode as standard
base64 (`base64.StdEncoding.DecodeString(event.Content)` returns no
error). -/
def validateNIP4Message (event : NostrEvent) : Bool :=
  goBase64Valid event.content

/-- The fixed fallback sender label used when NIP-5 verification is
skipped. -/
def unverifiedLabel : GoStr := "unverified@trustroots.org".toList

/-- The placeholder substituted for undecryptable NIP-4 content. -/
def dmPlaceholder : GoStr :=
  "[Encrypted Direct Message - Content not available]".toList

/-- Models `processMention` from `main.go`: verify the sender via the
directory; on a lookup error or an unverified sender in strict mode stop
with no side effect; otherwise use the resolved label (or the fixed
fallback label when unverified in permissive mode), hand an email job to
the email service and mark the note processed.  Email-service and
mark failures are logged only, so the state transition is total. -/
def processMention (dir : Directory) (skipNIP5 : Bool) (relayURL : GoStr)
    (now : Nat) (st : PipelineState) (event : NostrEvent) (user : User) :
    PipelineState :=
  let v := verifyNIP5FromDB dir event.pubkey
  if v.2.2 && !skipNIP5 then st
  else if !v.1 && !skipNIP5 then st
  else
    let senderNIP5 := if v.1 then v.2.1 else unverifiedLabel
    { processed := markNoteProcessed st.processed event.id relayURL
        user.email now,
      emails := st.emails ++ [⟨user, event, senderNIP5, false⟩] }

/-- Models `processDirectMessage` from `main.go`: skip events that do not
validate as NIP-4 (base64) content, verify the sender exactly as
`processMention` does, replace the content by the fixed placeholder, hand
the DM email job over and mark the note processed. -/
def processDirectMessage (dir : Directory) (skipNIP5 : Bool)
    (relayURL : GoStr) (now : Nat) (st : PipelineState) (event : NostrEvent)
    (user : User) : PipelineState :=
  if !validateNIP4Message event then st
  else
    let v := verifyNIP5FromDB dir event.pubkey
    if v.2.2 && !skipNIP5 then st
    else if !v.1 && !skipNIP5 then st
    else
      let senderNIP5 := if v.1 then v.2.1 else unverifiedLabel
      { processed := markNoteProcessed st.processed event.id relayURL
          user.email now,
        emails := st.emails ++
          [⟨user, { event with content := dmPlaceholder }, senderNIP5, true⟩] }

/-- Models the `EVENT` branch of the read loop in `connectToRelay`
(`main.go`): check the dedup store once, then route by kind — kind 1 runs
`processMention` for every user matched by `mentionsUser`, kind 4 runs
`processDirectMessage` for every user matched by `isDirectMessageForUser`,
kinds 14/15 are only logged, anything else is ignored. -/
def handleEvent (dir : Directory) (users : List User) (skipNIP5 : Bool)
    (relayURL : GoStr) (now : Nat) (st : PipelineState)
    (event : NostrEvent) : PipelineState :=
  if isNoteProcessed st.processed event.id then st
  else if event.kind == 1 then
    users.foldl (fun s user =>
      if mentionsUser event user then
        processMention dir skipNIP5 relayURL now s event user
      else s) st
  else if event.kind == 4 then
    users.foldl (fun s user =>
      if isDirectMessageForUser event user then
        processDirectMessage dir skipNIP5 relayURL now s event user
      else s) st
  else st

/-- The classification implied by the `switch event.Kind` of
`connectToRelay` combined with the per-kind matching predicate. -/
inductive EventClass
  | mention
  | directMessage
  | privateEnvelope
  | unclassified
deriving DecidableEq

/-- How the read loop of `main.go` classifies an event for one watched
user: kind 1 events matched by `mentionsUser` are public mentions, kind 4
events matched by `isDirectMessageForUser` are direct messages, kinds
14/15 are undecryptable private envelopes, everything else is ignored. -/
def classifyForUser (event : NostrEvent) (user : User) : EventClass :=
  if event.kind == 1 then
    (if mentionsUser event user then EventClass.mention
     else EventClass.unclassified)
  else if event.kind == 4 then
    (if isDirectMessageForUser event user then EventClass.directMessage
     else EventClass.unclassified)
  else if event.kind == 14 || event.kind == 15 then
    EventClass.privateEnvelope
  else EventClass.unclassified

/-! ## The read loop -/

/-- What one JSON element of an inbound frame unmarshals to: a string, a
`NostrEvent` object, or neither. -/
inductive JsonElem
  | str (s : GoStr)
  | event (e : NostrEvent)
  | other
deriving DecidableEq

/-- One inbound websocket text frame, as seen by
`json.Unmarshal(msgBytes, &messages)`: either not a JSON array at all, or
an array of elements. -/
inductive InFrame
  | notJson
  | arr (elems : List JsonElem)
deriving DecidableEq

/-- The error cases `conn.ReadMessage()` can report: the read deadline
expired, one of the two close errors tested by `websocket.IsCloseError`,
or any other error. -/
inductive ReadError
  | timeout
  | closeGoingAway
  | closeAbnormal
  | other
deriving DecidableEq

/-- One result of `conn.ReadMessage()`: a message or an error. -/
inductive ReadResult
  | msg (frame : InFrame)
  | err (e : ReadError)
deriving DecidableEq

/-- Models `websocket.IsCloseError(err, CloseGoingAway,
CloseAbnormalClosure)`. -/
def isCloseError : ReadError → Bool
  | ReadError.closeGoingAway => true
  | ReadError.closeAbnormal => true
  | _ => false

/-- Whether an iteration of the read loop keeps looping or returns from
the goroutine. -/
inductive LoopOutcome
  | exitLoop
  | continueLoop
deriving DecidableEq

/-- The control-flow outcome of one iteration of `main.go`'s read loop in
`connectToRelay` as a function of the read result: on an error the close
errors return, and the catch-all branch (`// For other errors, return to
avoid panic`) returns as well, so every read error exits the loop; a
received message is processed and the loop continues. -/
def readIterOutcome : ReadResult → LoopOutcome
  | ReadResult.msg _ => LoopOutcome.continueLoop
  | ReadResult.err e =>
    if isCloseError e then LoopOutcome.exitLoop else LoopOutcome.exitLoop

/-- The control-flow outcome of one iteration of the read loop in the
sibling variant of `connectToRelay` (the display-only file): close errors
return, every other read error — the timeout in particular — `continue`s
the loop. -/
def readIterOutcome001 : ReadResult → LoopOutcome
  | ReadResult.msg _ => LoopOutcome.continueLoop
  | ReadResult.err e =>
    if isCloseError e then LoopOutcome.exitLoop
    else LoopOutcome.continueLoop

/-- Models the frame-processing part of one read-loop iteration of
`main.go`: unparseable frames, arrays of fewer than two elements, frames
whose first element is not a string, non-`EVENT` frames (only logged) and
`EVENT` frames whose third element is not an event object are all dropped
by `continue`; a well-formed `EVENT` frame is handed to the event
handler. -/
def processFrame (dir : Directory) (users : List User) (skipNIP5 : Bool)
    (relayURL : GoStr) (now : Nat) (st : PipelineState) (frame : InFrame) :
    PipelineState :=
  match frame with
  | InFrame.notJson => st
  | InFrame.arr elems =>
    if elems.length < 2 then st
    else
      match elems.getD 0 JsonElem.other with
      | JsonElem.str msgType =>
        if msgType == "EVENT".toList && decide (3 ≤ elems.length) then
          match elems.getD 2 JsonElem.other with
          | JsonElem.event event =>
            handleEvent dir users skipNIP5 relayURL now st event
          | _ => st
        else st
      | _ => st

/-- The read loop of `main.go` over a finite schedule of read results:
any read error exits the loop (see `readIterOutcome`), a message frame is
processed and the loop continues. -/
def runReadLoop (dir : Directory) (users : List User) (skipNIP5 : Bool)
    (relayURL : GoStr) (now : Nat) (st : PipelineState) :
    List ReadResult → PipelineState
  | [] => st
  | ReadResult.err _ :: _ => st
  | ReadResult.msg f :: rest =>
    runReadLoop dir users skipNIP5 relayURL now
      (processFrame dir users skipNIP5 relayURL now st f) rest

/-- Is a JSON element an event object. -/
def isEventElem : JsonElem → Bool
  | JsonElem.event _ => true
  | _ => false

/-- The syntactically invalid frames listed by the malformed-frame
resilience property: non-JSON text or a malformed outer array
(`json.Unmarshal` fails), an array of fewer than two elements, or an
`EVENT` frame whose event payload does not unmarshal as an event. -/
def malformedFrame : InFrame → Bool
  | InFrame.notJson => true
  | InFrame.arr elems =>
    decide (elems.length < 2) ||
    (decide (elems.getD 0 JsonElem.other = JsonElem.str "EVENT".toList) &&
     decide (3 ≤ elems.length) &&
     !(isEventElem (elems.getD 2 JsonElem.other)))

/-! ## Pipeline lemmas -/

theorem markNoteProcessed_existing (rows : List ProcessedRow)
    (eventID relayURL userEmail : GoStr) (now : Nat)
    (h : isNoteProcessed rows eventID = true) :
    markNoteProcessed rows eventID relayURL userEmail now = rows := by
  unfold markNoteProcessed
  unfold isNoteProcessed at h
  rw [if_pos h]

theorem markNoteProcessed_new (rows : List ProcessedRow)
    (eventID relayURL userEmail : GoStr) (now : Nat)
    (h : isNoteProcessed rows eventID = false) :
    markNoteProcessed rows eventID relayURL userEmail now
      = rows ++ [⟨eventID, now, relayURL, userEmail⟩] := by
  unfold markNoteProcessed
  unfold isNoteProcessed at h
  rw [if_neg (by rw [h]; exact Bool.false_ne_true)]

theorem processMention_verified (dir : Directory) (skipNIP5 : Bool)
    (relayURL : GoStr) (now : Nat) (st : PipelineState) (event : NostrEvent)
    (user : User) (label : GoStr)
    (h : verifyNIP5FromDB dir event.pubkey = (true, label, false)) :
    processMention dir skipNIP5 relayURL now st event user =
      { processed := markNoteProcessed st.processed event.id relayURL
          user.email now,
        emails := st.emails ++ [⟨user, event, label, false⟩] } := by
  unfold processMention
  rw [h]
  simp

theorem processMention_unverified_strict (dir : Directory)
    (relayURL : GoStr) (now : Nat) (st : PipelineState) (event : NostrEvent)
    (user : User) (h : (verifyNIP5FromDB dir event.pubkey).1 = false) :
    processMention dir false relayURL now st event user = st := by
  unfold processMention
  rcases hv : verifyNIP5FromDB dir event.pubkey with ⟨isV, label, err⟩
  rw [hv] at h
  simp at h
  subst h
  rcases err with _ | _ <;> simp

theorem processMention_unverified_permissive (dir : Directory)
    (relayURL : GoStr) (now : Nat) (st : PipelineState) (event : NostrEvent)
    (user : User) (h : (verifyNIP5FromDB dir event.pubkey).1 = false) :
    processMention dir true relayURL now st event user =
      { processed := markNoteProcessed st.processed event.id relayURL
          user.email now,
        emails := st.emails ++ [⟨user, event, unverifiedLabel, false⟩] } := by
  unfold processMention
  rcases hv : verifyNIP5FromDB dir event.pubkey with ⟨isV, label, err⟩
  rw [hv] at h
  simp at h
  subst h
  rcases err with _ | _ <;> simp

theorem processDirectMessage_verified (dir : Directory) (skipNIP5 : Bool)
    (relayURL : GoStr) (now : Nat) (st : PipelineState) (event : NostrEvent)
    (user : User) (label : GoStr)
    (hvalid : validateNIP4Message event = true)
    (h : verifyNIP5FromDB dir event.pubkey = (true, label, false)) :
    processDirectMessage dir skipNIP5 relayURL now st event user =
      { processed := markNoteProcessed st.processed event.id relayURL
          user.email now,
        emails := st.emails ++
          [⟨user, { event with content := dmPlaceholder },
            label, true⟩] } := by
  unfold processDirectMessage
  rw [hvalid, h]
  simp

theorem processDirectMessage_unverified_strict (dir : Directory)
    (relayURL : GoStr) (now : Nat) (st : PipelineState) (event : NostrEvent)
    (user : User) (h : (verifyNIP5FromDB dir event.pubkey).1 = false) :
    processDirectMessage dir false relayURL now st event user = st := by
  unfold processDirectMessage
  rcases hval : validateNIP4Message event with _ | _
  · simp
  · rcases hv : verifyNIP5FromDB dir event.pubkey with ⟨isV, label, err⟩
    rw [hv] at h
    simp at h
    subst h
    rcases err with _ | _ <;> simp

theorem processDirectMessage_unverified_permissive (dir : Directory)
    (relayURL : GoStr) (now : Nat) (st : PipelineState) (event : NostrEvent)
    (user : User) (hvalid : validateNIP4Message event = true)
    (h : (verifyNIP5FromDB dir event.pubkey).1 = false) :
    processDirectMessage dir true relayURL now st event user =
      { processed := markNoteProcessed st.processed event.id relayURL
          user.email now,
        emails := st.emails ++
          [⟨user, { event with content := dmPlaceholder },
            unverifiedLabel, true⟩] } := by
  unfold processDirectMessage
  rw [hvalid]
  rcases hv : verifyNIP5FromDB dir event.pubkey with ⟨isV, label, err⟩
  rw [hv] at h
  simp at h
  subst h
  rcases err with _ | _ <;> simp

theorem foldl_id {α β : Type} (body : β → α → β)
    (users : List α) (st : β) (h : ∀ s u, body s u = s) :
    List.foldl body st users = st := by
  induction users generalizing st with
  | nil => rfl
  | cons u users ih =>
    rw [List.foldl_cons, h st u, ih]

theorem foldl_mention_recorded (dir : Directory) (skip : Bool)
    (relay : GoStr) (now : Nat) (event : NostrEvent) (label : GoStr)
    (hv : verifyNIP5FromDB dir event.pubkey = (true, label, false)) :
    ∀ (users : List User) (st : PipelineState),
      isNoteProcessed st.processed event.id = true →
      users.foldl (fun s user => if mentionsUser event user then
        processMention dir skip relay now s event user else s) st
      = { processed := st.processed,
          emails := st.emails ++
            (users.filter (fun u => mentionsUser event u)).map
              (fun u => ⟨u, event, label, false⟩) } := by
  intro users
  induction users with
  | nil => intro st h; simp
  | cons u users ih =>
    intro st h
    simp only [List.foldl_cons, List.filter_cons]
    by_cases hm : mentionsUser event u
    · rw [if_pos hm]
      rw [processMention_verified _ _ _ _ _ _ _ _ hv]
      rw [markNoteProcessed_existing _ _ _ _ _ h]
      rw [ih { processed := st.processed,
               emails := st.emails ++ [⟨u, event, label, false⟩] } h]
      simp [hm]
    · rw [if_neg hm, ih st h]
      simp [hm]

theorem foldl_mention_fresh (dir : Directory) (skip : Bool)
    (relay : GoStr) (now : Nat) (event : NostrEvent) (label : GoStr)
    (hv : verifyNIP5FromDB dir event.pubkey = (true, label, false)) :
    ∀ (users : List User) (st : PipelineState),
      isNoteProcessed st.processed event.id = false →
      users.foldl (fun s user => if mentionsUser event user then
        processMention dir skip relay now s event user else s) st
      = { processed :=
            match users.filter (fun u => mentionsUser event u) with
            | [] => st.processed
            | u :: _ => st.processed ++ [⟨event.id, now, relay, u.email⟩],
          emails := st.emails ++
            (users.filter (fun u => mentionsUser event u)).map
              (fun u => ⟨u, event, label, false⟩) } := by
  intro users
  induction users with
  | nil => intro st h; simp
  | cons u users ih =>
    intro st h
    simp only [List.foldl_cons, List.filter_cons]
    by_cases hm : mentionsUser event u
    · rw [if_pos hm]
      rw [processMention_verified _ _ _ _ _ _ _ _ hv]
      rw [markNoteProcessed_new _ _ _ _ _ h]
      rw [foldl_mention_recorded dir skip relay now event label hv users
        { processed := st.processed ++ [⟨event.id, now, relay, u.email⟩],
          emails := st.emails ++ [⟨u, event, label, false⟩] }
        (by simp [isNoteProcessed])]
      simp [hm, List.append_assoc]
    · rw [if_neg hm, ih st h]
      simp [hm]

theorem handleEvent_processed (dir : Directory) (users : List User)
    (skip : Bool) (relay : GoStr) (now : Nat) (st : PipelineState)
    (event : NostrEvent)
    (h : isNoteProcessed st.processed event.id = true) :
    handleEvent dir users skip relay now st event = st := by
  unfold handleEvent
  rw [if_pos h]

theorem handleEvent_kind1_verified (dir : Directory) (users : List User)
    (skip : Bool) (relay : GoStr) (now : Nat) (st : PipelineState)
    (event : NostrEvent) (label : GoStr)
    (hk : event.kind = 1)
    (hnp : isNoteProcessed st.processed event.id = false)
    (hv : verifyNIP5FromDB dir event.pubkey = (true, label, false)) :
    handleEvent dir users skip relay now st event
      = { processed :=
            match users.filter (fun u => mentionsUser event u) with
            | [] => st.processed
            | u :: _ => st.processed ++ [⟨event.id, now, relay, u.email⟩],
          emails := st.emails ++
            (users.filter (fun u => mentionsUser event u)).map
              (fun u => ⟨u, event, label, false⟩) } := by
  unfold handleEvent
  rw [if_neg (by rw [hnp]; exact Bool.false_ne_true)]
  rw [if_pos (by rw [hk]; rfl)]
  exact foldl_mention_fresh dir skip relay now event label hv users st hnp

theorem handleEvent_strict_unverified (dir : Directory) (users : List User)
    (relay : GoStr) (now : Nat) (st : PipelineState) (event : NostrEvent)
    (h : (verifyNIP5FromDB dir event.pubkey).1 = false) :
    handleEvent dir users false relay now st event = st := by
  unfold handleEvent
  by_cases hp : isNoteProcessed st.processed event.id = true
  · rw [if_pos hp]
  · rw [if_neg hp]
    by_cases h1 : (event.kind == 1) = true
    · rw [if_pos h1]
      apply foldl_id
      intro s u
      by_cases hm : mentionsUser event u = true
      · rw [if_pos hm, processMention_unverified_strict _ _ _ _ _ _ h]
      · rw [if_neg hm]
    · rw [if_neg h1]
      by_cases h4 : (event.kind == 4) = true
      · rw [if_pos h4]
        apply foldl_id
        intro s u
        by_cases hm : isDirectMessageForUser event u = true
        · rw [if_pos hm,
            processDirectMessage_unverified_strict _ _ _ _ _ _ h]
        · rw [if_neg hm]
      · rw [if_neg h4]

/-! ## Concrete fixtures -/

/-- The npub encoding of the 32-zero-byte identity. -/
def npubZeroStr : GoStr :=
  "npub1qqqqqqqqqqqqqqqqqqqqqqqqqqqqqqqqqqqqqqqqqqqqqqqqqqqqzqujme".toList

/-- The hex form of the 32-zero-byte identity. -/
def hexZeroStr : GoStr :=
  "0000000000000000000000000000000000000000000000000000000000000000".toList

/-- The npub encoding of the identity `0x00...01`. -/
def npubOneStr : GoStr :=
  "npub1qqqqqqqqqqqqqqqqqqqqqqqqqqqqqqqqqqqqqqqqqqqqqqqqqqqshp52w2".toList

/-- A watched user whose identity is the zero key. -/
def aliceUser : User :=
  ⟨"alice".toList, "alice@example.com".toList, npubZeroStr⟩

/-- A second watched user with the distinct identity `0x00...01`. -/
def bobUser : User :=
  ⟨"bob".toList, "bob@example.com".toList, npubOneStr⟩

/-- A directory in which every sender is found with username `carol`. -/
def allFoundDir : Directory := fun _ => DirectoryResult.found "carol".toList

/-- A directory in which no sender is found. -/
def noneFoundDir : Directory := fun _ => DirectoryResult.notFound

/-- A kind-1 event whose only addressing is the tag
`["p", <hex of the zero identity>]`. -/
def hexTagEvent : NostrEvent :=
  ⟨"e1".toList, hexZeroStr, 1700000000, 1,
    [["p".toList, hexZeroStr]], "hi".toList, "sig".toList⟩

/-- A kind-1 event carrying the tag `["p", <npub of the zero identity>]`,
the form `main.go` actually matches. -/
def npubTagEvent : NostrEvent :=
  ⟨"e1".toList, "pk".toList, 1700000000, 1,
    [["p".toList, npubZeroStr]], "zz".toList, "sig".toList⟩

/-- A kind-1 event tagging both watched identities (npub form). -/
def twoTagEvent : NostrEvent :=
  ⟨"e2".toList, "pk".toList, 1700000000, 1,
    [["p".toList, npubZeroStr], ["p".toList, npubOneStr]],
    "zz".toList, "sig".toList⟩

/-! ## Claim theorems -/

/-- C4: for every valid 32-byte binary identity `x`, decoding the encoded
human-readable form of `x` returns `x` again:
`hexToNpub` applied to the hex form of `x` succeeds with some npub string,
and `npubToHex` of that npub string returns exactly the hex form of `x`,
i.e. `decode (encode x) = x`. -/
theorem claim_c4_codec_roundtrip (x : List Nat) (hx32 : x.length = 32)
    (hx : ∀ b ∈ x, b < 256) :
    ∃ npub, hexToNpub (hexEncode x) = Except.ok npub ∧
      npubToHex npub = Except.ok (hexEncode x) :=
  codec_roundtrip x hx32 hx

/-- C4 witness: the round trip at the concrete all-zero 32-byte key. -/
theorem claim_c4_witness :
    (List.replicate 32 0).length = 32 ∧
    (∀ b ∈ List.replicate 32 0, b < 256) ∧
    ∃ npub, hexToNpub (hexEncode (List.replicate 32 0)) = Except.ok npub ∧
      npubToHex npub = Except.ok (hexEncode (List.replicate 32 0)) :=
  ⟨by decide, by decide,
    claim_c4_codec_roundtrip (List.replicate 32 0) (by decide) (by decide)⟩

/-- Whether an `Except` value is a success. -/
def exceptIsOk {ε α : Type} : Except ε α → Bool
  | Except.ok _ => true
  | Except.error _ => false

/-- C5 counterexample: the 11-character string `npub106246s` is a
well-checksummed `npub`-prefixed bech32 string whose decoded payload is
empty (0 bytes, not 32), yet `npubToHex` does not reject it: it returns
the empty hex string.  This refutes the claim that the decoded payload
length is one of the failure conditions and that every well-checksummed
`npub` string with a non-32-byte payload is rejected. -/
theorem claim_c5_counterexample :
    bech32Decode "npub106246s".toList = Except.ok ("npub".toList, []) ∧
    npubToHex "npub106246s".toList = Except.ok [] :=
  ⟨by rfl, by rfl⟩

/-- C5 (amended): `npubToHex` fails exactly when bech32 decoding fails
(length bounds, character set, separator or checksum), or the
human-readable prefix is not `npub`, or the 5-to-8-bit regrouping fails;
it performs no check on the decoded payload length, so a well-checksummed
`npub` string whose payload is shorter or longer than 32 bytes is
returned as a correspondingly shorter or longer hex string. -/
theorem claim_c5_amended (s : GoStr) :
    exceptIsOk (npubToHex s)
      = (match bech32Decode s with
         | Except.error _ => false
         | Except.ok (hrp, data) =>
           decide (hrp = "npub".toList) &&
             exceptIsOk (convertBits data 5 8 false)) := by
  unfold npubToHex
  rcases h : bech32Decode s with e | ⟨hrp, data⟩
  · rfl
  · simp only []
    by_cases hh : hrp = "npub".toList
    · rw [if_neg (by simp [hh])]
      rcases convertBits data 5 8 false with e | c <;> simp [hh, exceptIsOk]
    · rw [if_pos hh]
      simp only [exceptIsOk, Bool.false_eq, Bool.and_eq_false_imp,
        decide_eq_true_eq]
      intro hc
      exact absurd hc hh

set_option maxRecDepth 40000 in
/-- C2 counterexample: `aliceUser` is a watched entry whose binary
identity has hex form `hexZeroStr` (`npubToHex` of the entry's npub
returns that hex string), and `hexTagEvent` is a kind-1 event whose tags
include `["p", hexZeroStr]`; yet `main.go` does not classify it as a
public mention for that entry, and the same event with kind 4 is not
classified as a direct message either — the code compares tag values
against the npub-encoded identity, never the hex form. -/
theorem claim_c2_counterexample :
    npubToHex aliceUser.nostrNpub = Except.ok hexZeroStr ∧
    hexTagEvent.kind = 1 ∧
    hexTagEvent.tags = [["p".toList, hexZeroStr]] ∧
    classifyForUser hexTagEvent aliceUser ≠ EventClass.mention ∧
    classifyForUser { hexTagEvent with kind := 4 } aliceUser
      ≠ EventClass.directMessage :=
  ⟨by rfl, rfl, rfl, by decide, by decide⟩

/-- C2 (amended): for every watched entry, an incoming event with kind 1
whose tags include the tuple `["p", npub]` — where `npub` is the entry's
npub-encoded identity, the form `main.go` compares against — is
classified as a public mention for that entry, and an incoming event
with kind 4 carrying the same tag is classified as a direct message,
never as a mention. -/
theorem claim_c2_amended (event : NostrEvent) (user : User) (npub : GoStr)
    (hnp : user.nostrNpub = npub)
    (htag : event.tags.any (fun tag =>
      decide (2 ≤ tag.length) && (tag.getD 0 [] == "p".toList)
        && (tag.getD 1 [] == npub)) = true) :
    (event.kind = 1 → classifyForUser event user = EventClass.mention) ∧
    (event.kind = 4 →
      classifyForUser event user = EventClass.directMessage) := by
  subst hnp
  constructor
  · intro hk
    unfold classifyForUser
    rw [if_pos (by rw [hk]; rfl)]
    rw [if_pos (by unfold mentionsUser mentionsNpub; rw [htag]; simp)]
  · intro hk
    unfold classifyForUser
    rw [if_neg (by rw [hk]; simp)]
    rw [if_pos (by rw [hk]; rfl)]
    rw [if_pos (by unfold isDirectMessageForUser; exact htag)]

/-- C2 witness: the amended classification at concrete inputs — a kind-1
event carrying `["p", npub]` is a mention for `aliceUser` and the kind-4
version of the same event is a direct message. -/
theorem claim_c2_witness :
    classifyForUser npubTagEvent aliceUser = EventClass.mention ∧
    classifyForUser { npubTagEvent with kind := 4 } aliceUser
      = EventClass.directMessage :=
  ⟨(claim_c2_amended npubTagEvent aliceUser npubZeroStr rfl
      (by decide)).1 rfl,
   (claim_c2_amended { npubTagEvent with kind := 4 } aliceUser npubZeroStr
      rfl (by decide)).2 rfl⟩

theorem filter_eq_nil_of_not_processed (rows : List ProcessedRow)
    (e : GoStr) (h : isNoteProcessed rows e = false) :
    rows.filter (fun r => r.event_id == e) = [] := by
  unfold isNoteProcessed at h
  rw [List.filter_eq_nil_iff]
  intro r hr
  have := List.any_eq_false.mp h r hr
  simpa using this

/-- C1: for every event id, when the pipeline receives events carrying
that id twice — from the same or from different relay origins and at
different times — in the canonical idempotence scenario (the event is not
yet recorded, it is a kind-1 note, its sender verifies, and exactly one
watched entry matches), exactly one notification is dispatched and
exactly one `ProcessedRecord` row exists for that id: the second delivery
is stopped by the dedup check before any side effect (the state after the
second delivery equals the state after the first), and the mark operation
inserts at most one row keyed by the event id. -/
theorem claim_c1_dedup_idempotent (dir : Directory) (users : List User)
    (skip : Bool) (relay1 relay2 : GoStr) (now1 now2 : Nat)
    (st0 : PipelineState) (ev ev2 : NostrEvent) (label : GoStr)
    (hid : ev2.id = ev.id)
    (hk : ev.kind = 1)
    (hnp : isNoteProcessed st0.processed ev.id = false)
    (hv : verifyNIP5FromDB dir ev.pubkey = (true, label, false))
    (hone : (users.filter (fun u => mentionsUser ev u)).length = 1) :
    handleEvent dir users skip relay2 now2
        (handleEvent dir users skip relay1 now1 st0 ev) ev2
      = handleEvent dir users skip relay1 now1 st0 ev ∧
    (handleEvent dir users skip relay1 now1 st0 ev).emails.length
      = st0.emails.length + 1 ∧
    ((handleEvent dir users skip relay1 now1 st0 ev).processed.filter
      (fun r => r.event_id == ev.id)).length = 1 := by
  obtain ⟨u, hu⟩ := List.length_eq_one.mp hone
  have h1 := handleEvent_kind1_verified dir users skip relay1 now1 st0 ev
    label hk hnp hv
  rw [hu] at h1
  refine ⟨?_, ?_, ?_⟩
  · rw [h1]
    apply handleEvent_processed
    rw [hid]
    simp [isNoteProcessed]
  · rw [h1]
    simp [hu]
  · rw [h1]
    simp only [List.filter_append,
      filter_eq_nil_of_not_processed st0.processed ev.id hnp]
    simp

/-- C1 witness: two deliveries of the same event id (npub-tagged kind-1
note matching only `aliceUser`, all-verifying directory) from two relay
origins. -/
theorem claim_c1_witness :
    handleEvent allFoundDir [aliceUser] false "r2".toList 2
        (handleEvent allFoundDir [aliceUser] false "r1".toList 1
          ⟨[], []⟩ npubTagEvent) npubTagEvent
      = handleEvent allFoundDir [aliceUser] false "r1".toList 1
          ⟨[], []⟩ npubTagEvent ∧
    (handleEvent allFoundDir [aliceUser] false "r1".toList 1
        ⟨[], []⟩ npubTagEvent).emails.length = ([] : List EmailJob).length + 1 ∧
    ((handleEvent allFoundDir [aliceUser] false "r1".toList 1
        ⟨[], []⟩ npubTagEvent).processed.filter
      (fun r => r.event_id == npubTagEvent.id)).length = 1 :=
  claim_c1_dedup_idempotent allFoundDir [aliceUser] false "r1".toList
    "r2".toList 1 2 ⟨[], []⟩ npubTagEvent npubTagEvent
    ("carol@trustroots.org".toList) rfl rfl rfl rfl (by decide)

/-- C3 counterexample: `twoTagEvent` carries addressed-to (`p`) tags for
the two distinct watched identities of `aliceUser` and `bobUser` and its
sender passes verification, yet processing it yields two email jobs but
only ONE `ProcessedRecord` row for the event id — not two as claimed: the
second `markNoteProcessed` is an `INSERT OR IGNORE` no-op on the
`event_id` primary key. -/
theorem claim_c3_counterexample :
    aliceUser.nostrNpub ≠ bobUser.nostrNpub ∧
    (verifyNIP5FromDB allFoundDir twoTagEvent.pubkey).1 = true ∧
    mentionsUser twoTagEvent aliceUser = true ∧
    mentionsUser twoTagEvent bobUser = true ∧
    (handleEvent allFoundDir [aliceUser, bobUser] false "r1".toList 1
      ⟨[], []⟩ twoTagEvent).emails.length = 2 ∧
    ¬ ((handleEvent allFoundDir [aliceUser, bobUser] false "r1".toList 1
      ⟨[], []⟩ twoTagEvent).processed.filter
        (fun r => r.event_id == twoTagEvent.id)).length = 2 :=
  ⟨by decide, rfl, by decide, by decide, by decide, by decide⟩

/-- C3 (amended): an event with addressed-to tags for two distinct
watched entries whose sender passes verification yields two notification
jobs (one per recipient) but exactly ONE `ProcessedRecord` row for the
event id: the first recipient's mark inserts the row and the second mark
is an idempotent no-op, because the dedup table is keyed by event id
alone. -/
theorem claim_c3_amended (dir : Directory) (users : List User)
    (skip : Bool) (relay : GoStr) (now : Nat) (st0 : PipelineState)
    (ev : NostrEvent) (label : GoStr)
    (hk : ev.kind = 1)
    (hnp : isNoteProcessed st0.processed ev.id = false)
    (hv : verifyNIP5FromDB dir ev.pubkey = (true, label, false))
    (htwo : (users.filter (fun u => mentionsUser ev u)).length = 2) :
    (handleEvent dir users skip relay now st0 ev).emails.length
      = st0.emails.length + 2 ∧
    ((handleEvent dir users skip relay now st0 ev).processed.filter
      (fun r => r.event_id == ev.id)).length = 1 := by
  obtain ⟨u1, u2, hu⟩ := List.length_eq_two.mp htwo
  have h1 := handleEvent_kind1_verified dir users skip relay now st0 ev
    label hk hnp hv
  rw [hu] at h1
  refine ⟨?_, ?_⟩
  · rw [h1]
    simp [hu]
  · rw [h1]
    simp only [List.filter_append,
      filter_eq_nil_of_not_processed st0.processed ev.id hnp]
    simp

/-- C3 witness: the amended fan-out at the concrete two-recipient
scenario. -/
theorem claim_c3_witness :
    (handleEvent allFoundDir [aliceUser, bobUser] false "r1".toList 1
      ⟨[], []⟩ twoTagEvent).emails.length = ([] : List EmailJob).length + 2 ∧
    ((handleEvent allFoundDir [aliceUser, bobUser] false "r1".toList 1
      ⟨[], []⟩ twoTagEvent).processed.filter
        (fun r => r.event_id == twoTagEvent.id)).length = 1 :=
  claim_c3_amended allFoundDir [aliceUser, bobUser] false "r1".toList 1
    ⟨[], []⟩ twoTagEvent ("carol@trustroots.org".toList) rfl rfl rfl
    (by decide)

/-- C6: for every received event whose sender is unverifiable (the
directory lookup reports not-found, or the lookup itself fails), strict
mode (`--skip-nip5` off) dispatches zero notifications and writes zero
`ProcessedRecord`s for that event — the pipeline state is unchanged —
while permissive mode (`--skip-nip5` on) dispatches a notification using
the fixed fallback sender label `unverified@trustroots.org` and writes a
`ProcessedRecord`, both for mention processing and (when the content
validates as NIP-4) for direct-message processing. -/
theorem claim_c6_strict_vs_permissive (dir : Directory)
    (users : List User) (relay : GoStr) (now : Nat) (st : PipelineState)
    (ev : NostrEvent) (user : User)
    (hunv : dir (hexToNpubF ev.pubkey) = DirectoryResult.notFound ∨
      dir (hexToNpubF ev.pubkey) = DirectoryResult.lookupError) :
    handleEvent dir users false relay now st ev = st ∧
    processMention dir true relay now st ev user
      = { processed := markNoteProcessed st.processed ev.id relay
            user.email now,
          emails := st.emails ++ [⟨user, ev, unverifiedLabel, false⟩] } ∧
    (validateNIP4Message ev = true →
      processDirectMessage dir true relay now st ev user
        = { processed := markNoteProcessed st.processed ev.id relay
              user.email now,
            emails := st.emails ++
              [⟨user, { ev with content := dmPlaceholder },
                unverifiedLabel, true⟩] }) := by
  have h1 : (verifyNIP5FromDB dir ev.pubkey).1 = false := by
    unfold verifyNIP5FromDB
    rcases hunv with h | h <;> rw [h]
  exact ⟨handleEvent_strict_unverified dir users relay now st ev h1,
    processMention_unverified_permissive dir relay now st ev user h1,
    fun hval =>
      processDirectMessage_unverified_permissive dir relay now st ev user
        hval h1⟩

/-- C6 witness: the strict/permissive dichotomy at concrete inputs with
a directory that finds nobody and an empty-content (hence NIP-4-valid)
kind-4 event. -/
theorem claim_c6_witness :
    handleEvent noneFoundDir [aliceUser] false "r1".toList 1
        ⟨[], []⟩ npubTagEvent = ⟨[], []⟩ ∧
    processMention noneFoundDir true "r1".toList 1 ⟨[], []⟩ npubTagEvent
        aliceUser
      = { processed := markNoteProcessed [] npubTagEvent.id "r1".toList
            aliceUser.email 1,
          emails := [] ++
            [⟨aliceUser, npubTagEvent, unverifiedLabel, false⟩] } ∧
    (validateNIP4Message npubTagEvent = true →
      processDirectMessage noneFoundDir true "r1".toList 1 ⟨[], []⟩
          npubTagEvent aliceUser
        = { processed := markNoteProcessed [] npubTagEvent.id "r1".toList
              aliceUser.email 1,
            emails := [] ++
              [⟨aliceUser, { npubTagEvent with content := dmPlaceholder },
                unverifiedLabel, true⟩] }) :=
  claim_c6_strict_vs_permissive noneFoundDir [aliceUser] "r1".toList 1
    ⟨[], []⟩ npubTagEvent aliceUser (Or.inl rfl)

/-- C9: once a `ProcessedRecord` row exists for an event id, every later
`markNoteProcessed` call with the same event id — even with a different
relay URL, a different recipient email, or a different insert timestamp —
leaves the table exactly as it was: the `INSERT OR IGNORE` on the
`event_id` primary key is skipped, the statement still succeeds (the Go
function returns a nil error unless the driver fails), and the first
writer's `processed_at`, `relay_url` and `user_email` are never
overwritten. -/
theorem claim_c9_first_writer_wins (rows : List ProcessedRow)
    (eventID relay2 email2 : GoStr) (now2 : Nat)
    (h : isNoteProcessed rows eventID = true) :
    markNoteProcessed rows eventID relay2 email2 now2 = rows :=
  markNoteProcessed_existing rows eventID relay2 email2 now2 h

/-- C9 witness: a second mark with a different relay, email and
timestamp leaves the concrete one-row table unchanged. -/
theorem claim_c9_witness :
    markNoteProcessed
        [⟨"e1".toList, 1, "r1".toList, "alice@example.com".toList⟩]
        "e1".toList "r2".toList "bob@example.com".toList 2
      = [⟨"e1".toList, 1, "r1".toList, "alice@example.com".toList⟩] :=
  claim_c9_first_writer_wins
    [⟨"e1".toList, 1, "r1".toList, "alice@example.com".toList⟩]
    "e1".toList "r2".toList "bob@example.com".toList 2 (by decide)

/-- C10: `validateNIP4Message` returns true exactly when the event's
content is valid standard base64 (models
`base64.StdEncoding.DecodeString` succeeding); in particular it returns
true for the empty string, so a kind-4 event with empty content passes
the NIP-4 validation gate of `processDirectMessage` and proceeds to
notification processing (with a verified sender, an email job is handed
over and the note is marked) rather than being skipped. -/
theorem claim_c10_empty_content_accepted (ev : NostrEvent)
    (dir : Directory) (skip : Bool) (relay : GoStr) (now : Nat)
    (st : PipelineState) (user : User) (label : GoStr)
    (hempty : ev.content = [])
    (hv : verifyNIP5FromDB dir ev.pubkey = (true, label, false)) :
    (∀ e : NostrEvent, validateNIP4Message e = goBase64Valid e.content) ∧
    validateNIP4Message ev = true ∧
    processDirectMessage dir skip relay now st ev user
      = { processed := markNoteProcessed st.processed ev.id relay
            user.email now,
          emails := st.emails ++
            [⟨user, { ev with content := dmPlaceholder },
              label, true⟩] } := by
  have hval : validateNIP4Message ev = true := by
    unfold validateNIP4Message goBase64Valid
    rw [hempty]
    rfl
  exact ⟨fun e => rfl, hval,
    processDirectMessage_verified dir skip relay now st ev user label
      hval hv⟩

/-- C10 witness: the empty-content kind-4 event at concrete inputs with
an all-verifying directory. -/
theorem claim_c10_witness :
    (∀ e : NostrEvent,
      validateNIP4Message e = goBase64Valid e.content) ∧
    validateNIP4Message
      { npubTagEvent with kind := 4, content := [] } = true ∧
    processDirectMessage allFoundDir false "r1".toList 1 ⟨[], []⟩
        { npubTagEvent with kind := 4, content := [] } aliceUser
      = { processed := markNoteProcessed []
            ({ npubTagEvent with kind := 4, content := ([] : GoStr) }).id
            "r1".toList aliceUser.email 1,
          emails := [] ++
            [⟨aliceUser,
              { npubTagEvent with kind := 4, content := dmPlaceholder },
              "carol@trustroots.org".toList, true⟩] } :=
  claim_c10_empty_content_accepted
    { npubTagEvent with kind := 4, content := [] } allFoundDir false
    "r1".toList 1 ⟨[], []⟩ aliceUser ("carol@trustroots.org".toList)
    rfl rfl

/-- C7: evaluation of the two read loops at the failing input.  In
`main.go`, expiry of the 5-second read deadline with no inbound frame IS
an exit condition: `readIterOutcome` maps the timeout error (like every
other read error) to `exitLoop`, the goroutine returns and the relay is
abandoned, contradicting the claim that the loop continues on timeout and
that only a hard connection error exits.  The sibling variant of
`connectToRelay` does continue on timeout (and on any non-close error),
as the claim describes. -/
theorem claim_c7_timeout_behaviour :
    readIterOutcome (ReadResult.err ReadError.timeout)
      = LoopOutcome.exitLoop ∧
    (∀ e : ReadError,
      readIterOutcome (ReadResult.err e) = LoopOutcome.exitLoop) ∧
    (∀ f : InFrame,
      readIterOutcome (ReadResult.msg f) = LoopOutcome.continueLoop) ∧
    readIterOutcome001 (ReadResult.err ReadError.timeout)
      = LoopOutcome.continueLoop :=
  ⟨rfl, fun e => by rcases e <;> rfl, fun f => rfl, rfl⟩

/-- C8: for every syntactically invalid inbound frame — non-JSON text or
a malformed outer array, an array of fewer than two elements, or an
`EVENT` frame with a malformed event payload — the read loop drops the
frame with no state change and continues: the iteration outcome of a
received message is never `exitLoop`, and the run of the loop on the
malformed frame followed by any remaining schedule equals the run on the
remaining schedule alone, so a subsequent valid frame is still
processed. -/
theorem claim_c8_malformed_resilience (dir : Directory)
    (users : List User) (skip : Bool) (relay : GoStr) (now : Nat)
    (st : PipelineState) (frame : InFrame) (rest : List ReadResult)
    (hmal : malformedFrame frame = true) :
    processFrame dir users skip relay now st frame = st ∧
    readIterOutcome (ReadResult.msg frame) = LoopOutcome.continueLoop ∧
    runReadLoop dir users skip relay now st (ReadResult.msg frame :: rest)
      = runReadLoop dir users skip relay now st rest := by
  have hpf : processFrame dir users skip relay now st frame = st := by
    rcases frame with _ | elems
    · rfl
    · simp only [malformedFrame] at hmal
      simp only [processFrame]
      by_cases hlen : elems.length < 2
      · rw [if_pos hlen]
      · rw [if_neg hlen]
        simp only [Bool.or_eq_true, decide_eq_true_eq, Bool.and_eq_true,
          Bool.not_eq_true'] at hmal
        rcases hmal with hmal | ⟨⟨hstr, h3len⟩, hnev⟩
        · exact absurd hmal hlen
        · rw [hstr]
          simp only []
          rw [if_pos (by simp [h3len])]
          rcases hev : elems.getD 2 JsonElem.other with s | e | _
          · rfl
          · rw [hev] at hnev
            simp [isEventElem] at hnev
          · rfl
  refine ⟨hpf, rfl, ?_⟩
  show runReadLoop dir users skip relay now
    (processFrame dir users skip relay now st frame) rest = _
  rw [hpf]

/-- C8 witness: a non-JSON frame at concrete inputs is dropped, the loop
continues, and the run on the remaining schedule is unaffected. -/
theorem claim_c8_witness :
    processFrame allFoundDir [aliceUser] false "r1".toList 1 ⟨[], []⟩
        InFrame.notJson = ⟨[], []⟩ ∧
    readIterOutcome (ReadResult.msg InFrame.notJson)
      = LoopOutcome.continueLoop ∧
    runReadLoop allFoundDir [aliceUser] false "r1".toList 1 ⟨[], []⟩
        [ReadResult.msg InFrame.notJson]
      = runReadLoop allFoundDir [aliceUser] false "r1".toList 1
          ⟨[], []⟩ [] :=
  claim_c8_malformed_resilience allFoundDir [aliceUser] false "r1".toList
    1 ⟨[], []⟩ InFrame.notJson [] (by decide)
